import Mathlib

/-!
Shallow embedding of the pyevmdd EVMDD library (src/evmdd/evmdd.py,
src/evmdd/parser.py) in Lean 4.

Design notes on the embedding:

* Python `Node` / `Edge` objects are hash-consed (the `memoize` decorator),
  and `EqualityMixin` makes `==` structural, so object identity coincides
  with structural equality.  We therefore model nodes and edges as a plain
  inductive family; "handle equality" of the source is structural equality
  `=` here.  The child list of a node is encoded with a dedicated mutual
  type `EdgeList` (isomorphic to `List Edge`) so that all recursions are
  structural and kernel-computable.

* The `is_fully_reduced` flag stored on every Python node/edge is constant
  across any one diagram (mixing is forbidden and asserted against), so we
  do not store it in the data; instead the mode flag `fr` is passed to the
  operations, mirroring the manager's single mode.

* Python `assert` statements that guard behaviour visible to callers are
  modelled as `Except.error` outcomes (an `AssertionError` aborts the
  call).  Bounded recursion is realised with an explicit fuel argument
  chosen from the structural size of the inputs, so that every definition
  evaluates by kernel reduction.
-/

namespace Pyevmdd

mutual

inductive Node : Type where
  | mk (level : Nat) (children : EdgeList)

inductive EdgeList : Type where
  | nil : EdgeList
  | cons (e : Edge) (es : EdgeList) : EdgeList

inductive Edge : Type where
  | mk (weight : Int) (succ : Node)

end

def Edge.weight : Edge → Int
  | .mk w _ => w

def Edge.succ : Edge → Node
  | .mk _ s => s

def Node.level : Node → Nat
  | .mk l _ => l

def Node.children : Node → EdgeList
  | .mk _ cs => cs

/-- `Node.is_sink_node` from the source: a node is the sink iff it has no
outgoing edges. -/
def Node.is_sink_node : Node → Bool
  | .mk _ .nil => true
  | .mk _ (.cons _ _) => false

mutual

def Node.beq : Node → Node → Bool
  | .mk l1 c1, .mk l2 c2 => l1 == l2 && EdgeList.beq c1 c2

def EdgeList.beq : EdgeList → EdgeList → Bool
  | .nil, .nil => true
  | .cons e es, .cons f fs => Edge.beq e f && EdgeList.beq es fs
  | .nil, .cons _ _ => false
  | .cons _ _, .nil => false

def Edge.beq : Edge → Edge → Bool
  | .mk w1 s1, .mk w2 s2 => w1 == w2 && Node.beq s1 s2

end

mutual

theorem node_beq_iff : ∀ a b : Node, (Node.beq a b = true) ↔ a = b
  | .mk l1 c1, .mk l2 c2 => by
    simp [Node.beq, elist_beq_iff c1 c2]

theorem elist_beq_iff : ∀ a b : EdgeList, (EdgeList.beq a b = true) ↔ a = b
  | .nil, .nil => by simp [EdgeList.beq]
  | .cons e es, .cons f fs => by
    simp [EdgeList.beq, edge_beq_iff e f, elist_beq_iff es fs]
  | .nil, .cons _ _ => by simp [EdgeList.beq]
  | .cons _ _, .nil => by simp [EdgeList.beq]

theorem edge_beq_iff : ∀ a b : Edge, (Edge.beq a b = true) ↔ a = b
  | .mk w1 s1, .mk w2 s2 => by
    simp [Edge.beq, node_beq_iff s1 s2]

end

instance : DecidableEq Node := fun a b => decidable_of_iff _ (node_beq_iff a b)

instance : DecidableEq EdgeList := fun a b => decidable_of_iff _ (elist_beq_iff a b)

instance : DecidableEq Edge := fun a b => decidable_of_iff _ (edge_beq_iff a b)

instance {ε α : Type} [DecidableEq ε] [DecidableEq α] : DecidableEq (Except ε α) :=
  fun a b =>
    match a, b with
    | .ok x, .ok y =>
      if h : x = y then .isTrue (by rw [h]) else .isFalse (by simp [h])
    | .error x, .error y =>
      if h : x = y then .isTrue (by rw [h]) else .isFalse (by simp [h])
    | .ok _, .error _ => .isFalse (by simp)
    | .error _, .ok _ => .isFalse (by simp)

mutual

/-- Structural size of a node (used as a fuel bound for traversals). -/
def Node.nsize : Node → Nat
  | .mk _ cs => 1 + EdgeList.lsize cs

def EdgeList.lsize : EdgeList → Nat
  | .nil => 0
  | .cons e es => Edge.esize e + EdgeList.lsize es

/-- Structural size of an edge (used as a fuel bound for `apply`). -/
def Edge.esize : Edge → Nat
  | .mk _ s => 1 + Node.nsize s

end

/-! ### List helpers on `EdgeList` -/

def EdgeList.length : EdgeList → Nat
  | .nil => 0
  | .cons _ es => 1 + EdgeList.length es

def EdgeList.toList : EdgeList → List Edge
  | .nil => []
  | .cons e es => e :: EdgeList.toList es

def EdgeList.ofList : List Edge → EdgeList
  | [] => .nil
  | e :: es => .cons e (EdgeList.ofList es)

def EdgeList.emap (f : Edge → Edge) : EdgeList → EdgeList
  | .nil => .nil
  | .cons e es => .cons (f e) (EdgeList.emap f es)

def EdgeList.zipWith (f : Edge → Edge → Edge) : EdgeList → EdgeList → EdgeList
  | .nil, _ => .nil
  | .cons _ _, .nil => .nil
  | .cons e es, .cons g gs => .cons (f e g) (EdgeList.zipWith f es gs)

def EdgeList.replicate : Nat → Edge → EdgeList
  | 0, _ => .nil
  | n + 1, e => .cons e (EdgeList.replicate n e)

def EdgeList.all (p : Edge → Bool) : EdgeList → Bool
  | .nil => true
  | .cons e es => p e && EdgeList.all p es

def EdgeList.any (p : Edge → Bool) : EdgeList → Bool
  | .nil => false
  | .cons e es => p e || EdgeList.any p es

def EdgeList.get? : EdgeList → Nat → Option Edge
  | .nil, _ => none
  | .cons e _, 0 => some e
  | .cons _ es, n + 1 => EdgeList.get? es n

/-- Python `min([child.weight for child in children])` (left fold; the source
only calls it on non-empty lists, we return 0 on the empty list). -/
def minWeight : EdgeList → Int
  | .nil => 0
  | .cons e es => minWeightAux es e.weight
where
  minWeightAux : EdgeList → Int → Int
    | .nil, m => m
    | .cons e es, m => minWeightAux es (min m e.weight)

/-! ### Core construction (`_make_sink_node`, `_make_const_evmdd`) -/

/-- `_make_sink_node`: the unique 0-sink node (mode flag dropped, see header). -/
def make_sink_node : Node := Node.mk 0 .nil

/-- `_make_const_evmdd`: a single edge of the given weight into the sink. -/
def make_const_evmdd (number : Int) : Edge := Edge.mk number make_sink_node

/-! ### Operators and `apply` -/

/-- The three binary arithmetic operators that `Edge._apply` handles. -/
inductive Oper : Type where
  | add : Oper
  | sub : Oper
  | mul : Oper
  deriving DecidableEq

/-- `_aggregate_weights(weight1, weight2, oper)`. -/
def aggregate_weights (weight1 weight2 : Int) (oper : Oper) : Int :=
  match oper with
  | .add => weight1 + weight2
  | .sub => weight1 - weight2
  | .mul => weight1 * weight2

/-- `_is_terminal_case(edge1, edge2, oper)`. -/
def is_terminal_case (edge1 edge2 : Edge) (oper : Oper) : Bool :=
  match oper with
  | .add => edge1.succ.is_sink_node || edge2.succ.is_sink_node
  | .mul => edge1.succ.is_sink_node || edge2.succ.is_sink_node
  | .sub => edge2.succ.is_sink_node

/-- `_perform_shannon_reduction(succ)`: if all children carry the first
child's weight and lead to the first child's successor, skip to that
successor.  (The source indexes `children[0]` and so would crash on a
childless node; that situation never arises in its call sites, and we
return the node unchanged there.  The source's `assert first_child_weight
== 0` inside the collapsing branch is a debug check and is not modelled.) -/
def perform_shannon_reduction (succ : Node) : Node :=
  match succ with
  | .mk _ .nil => succ
  | .mk _ (.cons c _) =>
    if EdgeList.all (fun x => x.weight == c.weight) succ.children &&
       EdgeList.all (fun x => Node.beq x.succ c.succ) succ.children then
      c.succ
    else
      succ

/-- `_determine_children_on_same_level(edge1, edge2)`. -/
def determine_children_on_same_level (edge1 edge2 : Edge) : EdgeList :=
  if edge2.succ.level ≤ edge1.succ.level then
    EdgeList.emap (fun child => Edge.mk (child.weight + edge1.weight) child.succ)
      edge1.succ.children
  else
    EdgeList.replicate (EdgeList.length edge2.succ.children) edge1

/-- `Edge._apply` (with `_terminal_value` inlined), as a fuelled recursion.
Fuel 0 returns a dummy constant edge; `applyE` below supplies enough fuel
for the recursion never to bottom out. -/
def applyFuel (fr : Bool) : Nat → Oper → Edge → Edge → Edge
  | 0, _, _, _ => Edge.mk 0 make_sink_node
  | f + 1, oper, e1, e2 =>
    if is_terminal_case e1 e2 oper then
      -- `_terminal_value(e1, e2, oper, fr)`
      let rw := aggregate_weights e1.weight e2.weight oper
      match oper with
      | .add => Edge.mk rw (if e1.succ.is_sink_node then e2.succ else e1.succ)
      | .sub => Edge.mk rw (if e1.succ.is_sink_node then e2.succ else e1.succ)
      | .mul =>
        let sinkE := if e1.succ.is_sink_node then e1 else e2
        let pne := if e1.succ.is_sink_node then e2 else e1
        if pne.succ.is_sink_node then Edge.mk rw pne.succ
        else
          let scaled := EdgeList.emap (fun child => applyFuel fr f .mul sinkE child)
            pne.succ.children
          let rs := Node.mk pne.succ.level scaled
          Edge.mk rw (if fr then perform_shannon_reduction rs else rs)
    else
      let lvl := max e1.succ.level e2.succ.level
      let selfCh := determine_children_on_same_level e1 e2
      let otherCh := determine_children_on_same_level e2 e1
      let children := EdgeList.zipWith (applyFuel fr f oper) selfCh otherCh
      let m := minWeight children
      let children2 := EdgeList.emap (fun c => Edge.mk (c.weight - m) c.succ) children
      let rs := Node.mk lvl children2
      Edge.mk m (if fr then perform_shannon_reduction rs else rs)

/-- `Edge._apply(self, other, oper)`: run the recursion with fuel equal to
the combined structural size of the operands, which always suffices. -/
def applyE (fr : Bool) (oper : Oper) (e1 e2 : Edge) : Edge :=
  applyFuel fr (e1.esize + e2.esize) oper e1 e2

/-- `Edge.__neg__`: `0 - self`. -/
def negE (fr : Bool) (e : Edge) : Edge :=
  applyE fr .sub (make_const_evmdd 0) e

/-- The recursion `self * (self ** (k-1))` of `Edge.__pow__` on a
non-negative exponent. -/
def powAux (fr : Bool) (e : Edge) : Nat → Edge
  | 0 => make_const_evmdd 1
  | k + 1 => applyE fr .mul e (powAux fr e k)

/-- `Edge.__pow__`: raising to a negative power raises `ValueError`
("NegativeExponent"); otherwise recurse.  (The exponent is modelled as an
integer; the Python non-`Integral` branch is outside the embedding.) -/
def powE (fr : Bool) (e : Edge) (k : Int) : Except String Edge :=
  if k < 0 then
    .error "EVMDDs may only be raised to a nonnegative integral power."
  else
    .ok (powAux fr e k.toNat)


/-! ### The manager (`EvmddManager`) -/

/-- `EvmddManager.__init__` state: variable names in order, domain sizes in
the same order, and the reduction mode.  (`__init__` asserts that the two
lists have equal length; theorems carry that as a hypothesis.) -/
structure EvmddManager : Type where
  var_names : List String
  var_domains : List Nat
  fully_reduced : Bool

/-- `EvmddManager._level_to_domain_size(level)`: asserts `1 <= level <=
len(var_domains)` and returns `var_domains[-level]`, i.e. the entry at
index `len - level`. -/
def EvmddManager.level_to_domain_size (m : EvmddManager) (level : Nat) : Except String Nat :=
  if 1 ≤ level ∧ level ≤ m.var_domains.length then
    .ok (m.var_domains.getD (m.var_domains.length - level) 0)
  else
    .error "AssertionError: level out of range"

/-- `EvmddManager._level_to_var_name(level)`: asserts `1 <= level <=
len(var_names)` and returns `var_names[-level]`. -/
def EvmddManager.level_to_var_name (m : EvmddManager) (level : Nat) : Except String String :=
  if 1 ≤ level ∧ level ≤ m.var_names.length then
    .ok (m.var_names.getD (m.var_names.length - level) "")
  else
    .error "AssertionError: level out of range"

/-- `EvmddManager._var_name_to_level(var_name)`: asserts membership and
returns `len(var_names) - var_names.index(var_name)` (first occurrence). -/
def EvmddManager.var_name_to_level (m : EvmddManager) (var_name : String) : Except String Nat :=
  if var_name ∈ m.var_names then
    .ok (m.var_names.length - m.var_names.indexOf var_name)
  else
    .error "AssertionError: unknown variable"

/-- `EvmddManager.var_name_of(node)`. -/
def EvmddManager.var_name_of (m : EvmddManager) (node : Node) : Except String String :=
  m.level_to_var_name node.level

/-- `EvmddManager.make_const_evmdd(number)`. -/
def EvmddManager.make_const_evmdd (_m : EvmddManager) (number : Int) : Edge :=
  Pyevmdd.make_const_evmdd number

/-- The child list `[Edge(weight=d, succ=sink) for d in range(domain_size)]`
of `_make_var_evmdd_for_level`. -/
def rangeChildren (domain_size : Nat) : EdgeList :=
  EdgeList.ofList ((List.range domain_size).map
    (fun d => Edge.mk (Int.ofNat d) make_sink_node))

/-- `EvmddManager._make_var_evmdd_for_level(level)`. -/
def EvmddManager.make_var_evmdd_for_level (m : EvmddManager) (level : Nat) :
    Except String Edge := do
  let domain_size ← m.level_to_domain_size level
  pure (Edge.mk 0 (Node.mk level (rangeChildren domain_size)))

/-- `EvmddManager.make_var_evmdd_for_var(var_name)`. -/
def EvmddManager.make_var_evmdd_for_var (m : EvmddManager) (var_name : String) :
    Except String Edge := do
  let level ← m.var_name_to_level var_name
  m.make_var_evmdd_for_level level

/-! ### The term compiler (`parser._to_evmdd_rec`) -/

/-- Arithmetic surface terms: the AST fragment accepted by
`parser.read_function_term` (`ast.Num`, `ast.Name`, binary `+`, `-`, `*`,
and unary `-`). -/
inductive Term : Type where
  | num (n : Int) : Term
  | var (s : String) : Term
  | add (t u : Term) : Term
  | sub (t u : Term) : Term
  | mul (t u : Term) : Term
  | neg (t : Term) : Term

/-- `parser._to_evmdd_rec(node, manager)` (left subterm translated before
the right one, matching the source). -/
def to_evmdd_rec (m : EvmddManager) : Term → Except String Edge
  | .num n => pure (m.make_const_evmdd n)
  | .var s => m.make_var_evmdd_for_var s
  | .add t u => do
    let left ← to_evmdd_rec m t
    let right ← to_evmdd_rec m u
    pure (applyE m.fully_reduced .add left right)
  | .sub t u => do
    let left ← to_evmdd_rec m t
    let right ← to_evmdd_rec m u
    pure (applyE m.fully_reduced .sub left right)
  | .mul t u => do
    let left ← to_evmdd_rec m t
    let right ← to_evmdd_rec m u
    pure (applyE m.fully_reduced .mul left right)
  | .neg t => do
    let e ← to_evmdd_rec m t
    pure (negE m.fully_reduced e)

/-- The integer semantics of a surface term at a total valuation. -/
def termSem (σ : String → Int) : Term → Int
  | .num n => n
  | .var s => σ s
  | .add t u => termSem σ t + termSem σ u
  | .sub t u => termSem σ t - termSem σ u
  | .mul t u => termSem σ t * termSem σ u
  | .neg t => -termSem σ t

/-! ### The evaluator (`evaluate`) -/

/-- One pass of `evaluate`'s while-loop, instrumented to also return the
list of variable names read from the valuation along the traversed path.
All `assert` statements of the loop body are modelled as errors, as is a
`KeyError` from `valuation[var_name]`.  The fuel argument is set to the
structural size of the node by the wrapper, which always suffices. -/
def evalLoop (m : EvmddManager) (valuation : String → Option Int) :
    Nat → Int → Node → Except String (Int × List String)
  | 0, _, _ => .error "fuel exhausted"
  | f + 1, acc, nd =>
    match nd with
    | .mk _ .nil => .ok (acc, [])
    | .mk lvl (.cons c rest) =>
      let cs := EdgeList.cons c rest
      if minWeight cs = 0 then
        if (if m.fully_reduced then
              EdgeList.all (fun child => child.succ.level < lvl) cs &&
                (EdgeList.any (fun child => !Node.beq child.succ c.succ) cs ||
                 EdgeList.any (fun child => 0 < child.weight) cs)
            else
              EdgeList.all (fun child => child.succ.level + 1 == lvl) cs) then
          match m.var_name_of (Node.mk lvl cs) with
          | .error e => .error e
          | .ok var_name =>
            match valuation var_name with
            | none => .error "KeyError: variable missing from valuation"
            | some var_value =>
              if 0 ≤ var_value ∧ var_value < (EdgeList.length cs : Int) then
                match EdgeList.get? cs var_value.toNat with
                | some current_edge =>
                  (evalLoop m valuation f (acc + current_edge.weight)
                      current_edge.succ).map
                    (fun p => (p.1, var_name :: p.2))
                | none => .error "IndexError"
              else
                .error "AssertionError: value outside domain"
        else
          .error "AssertionError: reduction invariant violated"
      else
        .error "AssertionError: minimum child weight is not 0"

/-- `evaluate(evmdd, valuation, manager)`, instrumented with the list of
variable names whose valuation entries were read. -/
def evaluateVisited (evmdd : Edge) (valuation : String → Option Int)
    (m : EvmddManager) : Except String (Int × List String) :=
  evalLoop m valuation evmdd.succ.nsize evmdd.weight evmdd.succ

/-- `evaluate(evmdd, valuation, manager)`. -/
def evaluate (evmdd : Edge) (valuation : String → Option Int)
    (m : EvmddManager) : Except String Int :=
  (evaluateVisited evmdd valuation m).map (fun p => p.1)

/-! ### Claim theorems -/

/-- C1 (code bug): pointwise correctness `evaluate(compile(t), sigma) = [[t]](sigma)`
fails on the term `(0-1)*A` over the fully-reduced manager with variables
`["A"]` and domain sizes `[2]`.  The terminal multiplication case of
`_terminal_value` scales the children of the variable node by `-1` without
renormalizing, so the compiled EVMDD has child weights `[0, -1]`, and
`evaluate` aborts on its own `assert min(children weights) == 0` instead of
returning the term value `-1` at `A = 1`. -/
theorem c1_pointwise_correctness_failure :
    to_evmdd_rec ⟨["A"], [2], true⟩ (.mul (.sub (.num 0) (.num 1)) (.var "A")) =
      .ok (Edge.mk 0 (Node.mk 1 (.cons (Edge.mk 0 make_sink_node)
        (.cons (Edge.mk (-1) make_sink_node) .nil)))) ∧
    termSem (fun s => if s = "A" then 1 else 0)
      (.mul (.sub (.num 0) (.num 1)) (.var "A")) = -1 ∧
    evaluate
      (Edge.mk 0 (Node.mk 1 (.cons (Edge.mk 0 make_sink_node)
        (.cons (Edge.mk (-1) make_sink_node) .nil))))
      (fun s => if s = "A" then some 1 else none) ⟨["A"], [2], true⟩ =
      .error "AssertionError: minimum child weight is not 0" := by
  refine ⟨by decide, by decide, by decide⟩

/-- C2 (code bug): canonicity fails.  Over the fully-reduced manager with
variables `["A"]` and domains `[2]`, the terms `0 - A` and `(0-1)*A` denote
the same pseudo-Boolean function (they agree on both points of the domain),
yet they compile to structurally different handles: the missing
renormalization in the terminal multiplication case leaves `(0-1)*A` with
child weights `[0, -1]` while `0 - A` is correctly normalized to the root
weight `-1` with child weights `[1, 0]`. -/
theorem c2_canonicity_failure :
    termSem (fun _ => 0) (.sub (.num 0) (.var "A")) =
      termSem (fun _ => 0) (.mul (.sub (.num 0) (.num 1)) (.var "A")) ∧
    termSem (fun _ => 1) (.sub (.num 0) (.var "A")) =
      termSem (fun _ => 1) (.mul (.sub (.num 0) (.num 1)) (.var "A")) ∧
    to_evmdd_rec ⟨["A"], [2], true⟩ (.sub (.num 0) (.var "A")) =
      .ok (Edge.mk (-1) (Node.mk 1 (.cons (Edge.mk 1 make_sink_node)
        (.cons (Edge.mk 0 make_sink_node) .nil)))) ∧
    to_evmdd_rec ⟨["A"], [2], true⟩ (.mul (.sub (.num 0) (.num 1)) (.var "A")) =
      .ok (Edge.mk 0 (Node.mk 1 (.cons (Edge.mk 0 make_sink_node)
        (.cons (Edge.mk (-1) make_sink_node) .nil)))) ∧
    Edge.mk (-1) (Node.mk 1 (.cons (Edge.mk 1 make_sink_node)
        (.cons (Edge.mk 0 make_sink_node) .nil))) ≠
      Edge.mk 0 (Node.mk 1 (.cons (Edge.mk 0 make_sink_node)
        (.cons (Edge.mk (-1) make_sink_node) .nil))) := by
  refine ⟨by decide, by decide, by decide, by decide, by decide⟩

/-- C3 (code bug): invariant I1 (minimum outgoing weight 0 at every branch)
fails for the branch built by the terminal multiplication case.
Multiplying the constant EVMDD `-1` by the variable EVMDD for `A` (domain
size 2) scales the children to weights `[0, -1]` with no renormalization,
so the resulting branch has minimum outgoing weight `-1`. -/
theorem c3_weight_normalization_failure :
    EvmddManager.make_var_evmdd_for_var ⟨["A"], [2], true⟩ "A" =
      .ok (Edge.mk 0 (Node.mk 1 (.cons (Edge.mk 0 make_sink_node)
        (.cons (Edge.mk 1 make_sink_node) .nil)))) ∧
    applyE true .mul (make_const_evmdd (-1))
      (Edge.mk 0 (Node.mk 1 (.cons (Edge.mk 0 make_sink_node)
        (.cons (Edge.mk 1 make_sink_node) .nil)))) =
      Edge.mk 0 (Node.mk 1 (.cons (Edge.mk 0 make_sink_node)
        (.cons (Edge.mk (-1) make_sink_node) .nil))) ∧
    minWeight (EdgeList.cons (Edge.mk 0 make_sink_node)
      (.cons (Edge.mk (-1) make_sink_node) .nil)) = -1 := by
  refine ⟨by decide, by decide, by decide⟩

/-- C5 (code bug): invariant I2 fails in quasi-reduced mode.  Under the
quasi-reduced manager with variables `["A", "B"]` and domains `[2, 2]`, the
variable constructor for `A` builds a branch node at level 2 whose children
lead directly to the sink (level 0) instead of chaining through a level-1
node, and `evaluate` rejects the resulting EVMDD with its own quasi-reduced
level assertion. -/
theorem c5_quasi_reduced_invariant_failure :
    EvmddManager.make_var_evmdd_for_var ⟨["A", "B"], [2, 2], false⟩ "A" =
      .ok (Edge.mk 0 (Node.mk 2 (.cons (Edge.mk 0 make_sink_node)
        (.cons (Edge.mk 1 make_sink_node) .nil)))) ∧
    EdgeList.all (fun child => child.succ.level + 1 == 2)
      (EdgeList.cons (Edge.mk 0 make_sink_node)
        (.cons (Edge.mk 1 make_sink_node) .nil)) = false ∧
    evaluate
      (Edge.mk 0 (Node.mk 2 (.cons (Edge.mk 0 make_sink_node)
        (.cons (Edge.mk 1 make_sink_node) .nil))))
      (fun s => if s = "A" then some 0 else if s = "B" then some 0 else none)
      ⟨["A", "B"], [2, 2], false⟩ =
      .error "AssertionError: reduction invariant violated" := by
  refine ⟨by decide, by decide, by decide⟩

/-- C9 (confirmed): `e ** k` succeeds exactly for non-negative integer
exponents, fails with the "NegativeExponent" `ValueError` on negative ones,
and `e ** 0` is the constant EVMDD 1 (an edge of weight 1 to the sink)
regardless of `e`.  (The Python non-`Integral` branch lies outside the
integer exponent model.) -/
theorem c9_pow (fr : Bool) (e : Edge) (k : Int) :
    ((powE fr e k).isOk = true ↔ 0 ≤ k) ∧
    (k < 0 → powE fr e k =
      .error "EVMDDs may only be raised to a nonnegative integral power.") ∧
    powE fr e 0 = .ok (make_const_evmdd 1) := by
  refine ⟨?_, ?_, ?_⟩
  · constructor
    · intro hok
      by_contra hneg
      have h : k < 0 := by omega
      simp [powE, h, Except.isOk, Except.toBool] at hok
    · intro hk
      have h : ¬k < 0 := by omega
      simp [powE, h, Except.isOk, Except.toBool]
  · intro h
    simp [powE, h]
  · rfl

/-- Witness for C9 at concrete inputs: the exponent `-1` fails, the
exponent `0` yields the constant-1 EVMDD. -/
theorem c9_pow_witness :
    powE true (make_const_evmdd 2) (-1) =
      .error "EVMDDs may only be raised to a nonnegative integral power." ∧
    powE true (make_const_evmdd 2) 0 = .ok (make_const_evmdd 1) :=
  ⟨(c9_pow true (make_const_evmdd 2) (-1)).2.1 (by decide),
   (c9_pow true (make_const_evmdd 2) 0).2.2⟩

/-- Auxiliary for C10: the loop of `evaluate` only consults the valuation at
the variable names it returns, so two valuations agreeing there produce the
same run. -/
theorem evalLoop_agree (m : EvmddManager) (s1 s2 : String → Option Int) :
    ∀ (f : Nat) (acc : Int) (nd : Node) (r : Int) (vs : List String),
      evalLoop m s1 f acc nd = .ok (r, vs) →
      (∀ x ∈ vs, s2 x = s1 x) →
      evalLoop m s2 f acc nd = .ok (r, vs) := by
  intro f
  induction f with
  | zero =>
    intro acc nd r vs h hag
    simp [evalLoop] at h
  | succ f ih =>
    intro acc nd r vs h hag
    match nd with
    | .mk lvl .nil =>
      simp [evalLoop] at h ⊢
      exact h
    | .mk lvl (.cons c rest) =>
      simp only [evalLoop] at h ⊢
      by_cases h1 : minWeight (EdgeList.cons c rest) = 0
      · simp only [if_pos h1] at h ⊢
        cases hb : (if m.fully_reduced then
              EdgeList.all (fun child => decide (child.succ.level < lvl))
                  (EdgeList.cons c rest) &&
                (EdgeList.any (fun child => !Node.beq child.succ c.succ)
                    (EdgeList.cons c rest) ||
                  EdgeList.any (fun child => decide (0 < child.weight))
                    (EdgeList.cons c rest))
            else
              EdgeList.all (fun child => child.succ.level + 1 == lvl)
                (EdgeList.cons c rest)) with
        | false => simp only [hb, Bool.false_eq_true, if_neg] at h; simp at h
        | true =>
          simp only [hb, if_true] at h ⊢
          cases hv : m.var_name_of (Node.mk lvl (EdgeList.cons c rest)) with
          | error msg => simp [hv] at h
          | ok name =>
            simp only [hv] at h ⊢
            cases hs : s1 name with
            | none => simp [hs] at h
            | some v =>
              simp only [hs] at h
              by_cases h2 : 0 ≤ v ∧ v < (EdgeList.length (EdgeList.cons c rest) : Int)
              · simp only [if_pos h2] at h ⊢
                cases hg : EdgeList.get? (EdgeList.cons c rest) v.toNat with
                | none => simp [hg] at h
                | some ce =>
                  simp only [hg] at h ⊢
                  cases hrec : evalLoop m s1 f (acc + ce.weight) ce.succ with
                  | error msg => simp [hrec, Except.map] at h
                  | ok p =>
                    simp only [hrec, Except.map] at h
                    have hp : p.1 = r ∧ name :: p.2 = vs := by
                      cases h
                      exact ⟨rfl, rfl⟩
                    obtain ⟨hp1, hp2⟩ := hp
                    have hname : s2 name = some v := by
                      have := hag name (by rw [← hp2]; exact List.mem_cons_self _ _)
                      rw [this, hs]
                    rw [hname]
                    simp only [if_pos h2, hg]
                    have hrec2 : evalLoop m s2 f (acc + ce.weight) ce.succ = .ok p := by
                      have : evalLoop m s2 f (acc + ce.weight) ce.succ = .ok (p.1, p.2) := by
                        apply ih _ _ _ _ hrec
                        intro x hx
                        exact hag x (by rw [← hp2]; exact List.mem_cons_of_mem _ hx)
                      simpa using this
                    rw [hrec2]
                    simp [Except.map, hp1, hp2]
              · simp only [if_neg h2] at h
                simp at h
      · simp only [if_neg h1] at h
        simp at h

/-- C10 (confirmed): the result of `evaluate` depends only on the valuation
entries of the variables labeling the branch nodes visited along the
traversed path (returned by `evaluateVisited`): any valuation agreeing
there gives the same run; and when the root edge's successor is the sink,
`evaluate` returns the root weight under every valuation. -/
theorem c10_evaluate_locality (m : EvmddManager) (e : Edge) :
    (∀ (s1 s2 : String → Option Int) (r : Int) (vs : List String),
        evaluateVisited e s1 m = .ok (r, vs) →
        (∀ x ∈ vs, s2 x = s1 x) →
        evaluateVisited e s2 m = .ok (r, vs) ∧ evaluate e s2 m = .ok r) ∧
    (e.succ.is_sink_node = true → ∀ s, evaluate e s m = .ok e.weight) := by
  constructor
  · intro s1 s2 r vs h hag
    have h2 : evaluateVisited e s2 m = .ok (r, vs) :=
      evalLoop_agree m s1 s2 _ _ _ _ _ h hag
    exact ⟨h2, by simp [evaluate, h2, Except.map]⟩
  · intro hsink s
    match e with
    | .mk w (.mk l .nil) =>
      simp [evaluate, evaluateVisited, evalLoop, Node.nsize, EdgeList.lsize,
        Edge.succ, Edge.weight, Except.map]
    | .mk w (.mk l (.cons _ _)) =>
      simp [Node.is_sink_node, Edge.succ] at hsink

/-- Witness for C10: over the fully-reduced manager on `["A", "B"]`, the
EVMDD of the term `A` skips `B`; a valuation defining only `A` evaluates
fine, any valuation agreeing on `A` (here additionally defining `B`)
produces the same result, and a constant edge evaluates to its weight under
the empty valuation. -/
theorem c10_evaluate_locality_witness :
    evaluateVisited
        (Edge.mk 0 (Node.mk 2 (.cons (Edge.mk 0 make_sink_node)
          (.cons (Edge.mk 1 make_sink_node) .nil))))
        (fun s => if s = "A" then some 1 else if s = "B" then some 7 else none)
        ⟨["A", "B"], [2, 2], true⟩ = .ok (1, ["A"]) ∧
    evaluate (make_const_evmdd 5) (fun _ => none) ⟨["A", "B"], [2, 2], true⟩ =
      .ok 5 :=
  ⟨((c10_evaluate_locality ⟨["A", "B"], [2, 2], true⟩
      (Edge.mk 0 (Node.mk 2 (.cons (Edge.mk 0 make_sink_node)
        (.cons (Edge.mk 1 make_sink_node) .nil))))).1
      (fun s => if s = "A" then some 1 else none)
      (fun s => if s = "A" then some 1 else if s = "B" then some 7 else none)
      1 ["A"] (by decide) (by decide)).1,
   (c10_evaluate_locality ⟨["A", "B"], [2, 2], true⟩ (make_const_evmdd 5)).2
      (by decide) (fun _ => none)⟩

theorem EdgeList.length_ofList (xs : List Edge) :
    (EdgeList.ofList xs).length = xs.length := by
  induction xs with
  | nil => rfl
  | cons x xs ih => simp [EdgeList.ofList, EdgeList.length, ih]; omega

theorem EdgeList.get?_ofList (xs : List Edge) (n : Nat) :
    (EdgeList.ofList xs).get? n = xs.get? n := by
  induction xs generalizing n with
  | nil => cases n <;> rfl
  | cons x xs ih =>
    cases n with
    | zero => rfl
    | succ n => simp [EdgeList.ofList, EdgeList.get?, ih, List.get?]

theorem rangeChildren_length (d : Nat) : (rangeChildren d).length = d := by
  simp [rangeChildren, EdgeList.length_ofList]

theorem rangeChildren_get? (d v : Nat) (hv : v < d) :
    (rangeChildren d).get? v = some (Edge.mk (Int.ofNat v) make_sink_node) := by
  simp [rangeChildren, EdgeList.get?_ofList, List.get?_eq_getElem?,
    List.getElem?_map, List.getElem?_range hv]

/-- C8 (confirmed): for a registered variable name at level `l` with domain
size `d`, `make_var_evmdd_for_var` returns the edge `(weight 0, succ N)`
where `N` is a branch node at level `l` whose `i`-th child edge has weight
`i` and the sink as successor for `i < d`; an unregistered name fails with
the "UnknownVariable" assertion. -/
theorem c8_make_var (m : EvmddManager) (name : String) (i l d : Nat)
    (hlen : m.var_domains.length = m.var_names.length)
    (hmem : name ∈ m.var_names)
    (hidx : m.var_names.indexOf name = i)
    (hl : l = m.var_names.length - i)
    (hd : m.var_domains.get? i = some d) :
    (∃ cs : EdgeList,
        m.make_var_evmdd_for_var name = .ok (Edge.mk 0 (Node.mk l cs)) ∧
        cs.length = d ∧
        ∀ v : Nat, v < d → cs.get? v = some (Edge.mk (Int.ofNat v) make_sink_node)) ∧
    (∀ s, s ∉ m.var_names →
        m.make_var_evmdd_for_var s = .error "AssertionError: unknown variable") := by
  constructor
  · have hi : i < m.var_names.length := by
      rw [← hidx]; exact List.indexOf_lt_length.mpr hmem
    have hlevel : m.var_name_to_level name = .ok l := by
      simp [EvmddManager.var_name_to_level, hmem, hidx, hl]
    have hdom : m.level_to_domain_size l = .ok d := by
      have hguard : 1 ≤ l ∧ l ≤ m.var_domains.length := by omega
      have hidx2 : m.var_domains.length - l = i := by omega
      simp only [EvmddManager.level_to_domain_size, if_pos hguard, hidx2]
      have : m.var_domains.getD i 0 = d := by
        rw [List.getD_eq_getElem?_getD, ← List.get?_eq_getElem?, hd]
        rfl
      rw [this]
    refine ⟨rangeChildren d, ?_, rangeChildren_length d, fun v hv => rangeChildren_get? d v hv⟩
    simp [EvmddManager.make_var_evmdd_for_var, hlevel,
      EvmddManager.make_var_evmdd_for_level, hdom, Bind.bind, Except.bind,
      Functor.map, Except.map, Pure.pure, Except.pure]
  · intro s hs
    simp [EvmddManager.make_var_evmdd_for_var, EvmddManager.var_name_to_level,
      hs, Bind.bind, Except.bind]

/-- Witness for C8 at the manager over `["A", "B"]` with domains `[2, 3]`:
the variable `B` sits at level 1 with domain size 3, and the unknown name
`"C"` is rejected. -/
theorem c8_make_var_witness :
    (∃ cs : EdgeList,
        EvmddManager.make_var_evmdd_for_var ⟨["A", "B"], [2, 3], true⟩ "B" =
          .ok (Edge.mk 0 (Node.mk 1 cs)) ∧
        cs.length = 3 ∧
        ∀ v : Nat, v < 3 → cs.get? v = some (Edge.mk (Int.ofNat v) make_sink_node)) ∧
    (∀ s, s ∉ (["A", "B"] : List String) →
        EvmddManager.make_var_evmdd_for_var ⟨["A", "B"], [2, 3], true⟩ s =
          .error "AssertionError: unknown variable") :=
  c8_make_var ⟨["A", "B"], [2, 3], true⟩ "B" 1 1 3 (by decide) (by decide)
    (by decide) (by decide) (by decide)

/-- C4 counterexample: the claim computes the terminal weight as
`aggregate(w_C, w_D)` with C the constant (sink) side listed first.  For
`A - 17` (left operand the variable EVMDD of `A`, right operand the
constant 17), C is the right operand, so the claim's formula gives
`17 - 0 = 17`; the code aggregates in operand order and returns weight
`0 - 17 = -17`. -/
theorem c4_terminal_weight_counterexample :
    is_terminal_case
        (Edge.mk 0 (Node.mk 1 (.cons (Edge.mk 0 make_sink_node)
          (.cons (Edge.mk 1 make_sink_node) .nil))))
        (make_const_evmdd 17) .sub = true ∧
    applyE true .sub
        (Edge.mk 0 (Node.mk 1 (.cons (Edge.mk 0 make_sink_node)
          (.cons (Edge.mk 1 make_sink_node) .nil))))
        (make_const_evmdd 17) =
      Edge.mk (-17) (Node.mk 1 (.cons (Edge.mk 0 make_sink_node)
        (.cons (Edge.mk 1 make_sink_node) .nil))) ∧
    aggregate_weights (make_const_evmdd 17).weight
        (Edge.mk 0 (Node.mk 1 (.cons (Edge.mk 0 make_sink_node)
          (.cons (Edge.mk 1 make_sink_node) .nil)))).weight .sub = 17 ∧
    (-17 : Int) ≠ 17 := by
  refine ⟨by decide, by decide, by decide, by decide⟩

/-- C4 (amended): the terminal-case test is as claimed (either successor a
sink for `+` and `*`, the right successor a sink for `-`); in a terminal
`+` or `-` the result edge has weight `aggregate(w1, w2)` with the operands
in application order (left, right) — not `aggregate(w_C, w_D)` with the
constant side first — and successor `succ(D)`, where `D` is the right
operand when the left successor is the sink and the left operand
otherwise. -/
theorem c4_terminal_case_amended (fr : Bool) (e1 e2 : Edge) :
    (is_terminal_case e1 e2 .add =
        (e1.succ.is_sink_node || e2.succ.is_sink_node) ∧
     is_terminal_case e1 e2 .mul =
        (e1.succ.is_sink_node || e2.succ.is_sink_node) ∧
     is_terminal_case e1 e2 .sub = e2.succ.is_sink_node) ∧
    (is_terminal_case e1 e2 .add = true →
      applyE fr .add e1 e2 =
        Edge.mk (aggregate_weights e1.weight e2.weight .add)
          (if e1.succ.is_sink_node then e2.succ else e1.succ)) ∧
    (is_terminal_case e1 e2 .sub = true →
      applyE fr .sub e1 e2 =
        Edge.mk (aggregate_weights e1.weight e2.weight .sub)
          (if e1.succ.is_sink_node then e2.succ else e1.succ)) := by
  have hfuel : ∀ oper, applyE fr oper e1 e2 =
      applyFuel fr ((e1.succ.nsize + e2.succ.nsize + 1) + 1) oper e1 e2 := by
    intro oper
    match e1, e2 with
    | .mk w1 s1, .mk w2 s2 =>
      have : Edge.esize (Edge.mk w1 s1) + Edge.esize (Edge.mk w2 s2) =
          ((Edge.mk w1 s1).succ.nsize + (Edge.mk w2 s2).succ.nsize + 1) + 1 := by
        simp [Edge.esize, Edge.succ]
        omega
      rw [applyE, this]
  refine ⟨⟨rfl, rfl, rfl⟩, ?_, ?_⟩
  · intro h
    rw [hfuel, applyFuel]
    simp [h]
  · intro h
    rw [hfuel, applyFuel]
    simp [h]

/-- Witness for C4 at a concrete terminal subtraction `A - 17`. -/
theorem c4_terminal_case_amended_witness :
    applyE true .sub
        (Edge.mk 0 (Node.mk 1 (.cons (Edge.mk 0 make_sink_node)
          (.cons (Edge.mk 1 make_sink_node) .nil))))
        (make_const_evmdd 17) =
      Edge.mk
        (aggregate_weights 0 17 .sub)
        (Node.mk 1 (.cons (Edge.mk 0 make_sink_node)
          (.cons (Edge.mk 1 make_sink_node) .nil))) :=
  (c4_terminal_case_amended true
      (Edge.mk 0 (Node.mk 1 (.cons (Edge.mk 0 make_sink_node)
        (.cons (Edge.mk 1 make_sink_node) .nil))))
      (make_const_evmdd 17)).2.2 (by decide)

/-! ### Well-formedness (sink nodes are the level-0 childless node)

Every node the library ever constructs that has no children is
`_make_sink_node()`, i.e. carries level 0.  The predicate `WfN` captures
exactly this fact, hereditarily; it is the only structural property needed
for the commutativity of `apply`. -/

inductive WfN : Node → Prop where
  | sink : WfN (Node.mk 0 .nil)
  | branch : ∀ (l : Nat) (e : Edge) (es : EdgeList),
      (∀ c ∈ (EdgeList.cons e es).toList, WfN c.succ) →
      WfN (Node.mk l (.cons e es))

/-- A well-formed edge: its successor (and everything below) is well-formed. -/
def WfE (e : Edge) : Prop := WfN e.succ

theorem wf_sink_eq {n : Node} (h : WfN n) (hs : n.is_sink_node = true) :
    n = Node.mk 0 .nil := by
  cases h with
  | sink => rfl
  | branch l e es hh => simp [Node.is_sink_node] at hs

theorem WfN.children_wf {l : Nat} {cs : EdgeList} (h : WfN (Node.mk l cs)) :
    ∀ c ∈ cs.toList, WfN c.succ := by
  cases h with
  | sink => simp [EdgeList.toList]
  | branch _ e es hh => exact hh

theorem EdgeList.toList_emap (f : Edge → Edge) :
    ∀ es : EdgeList, (EdgeList.emap f es).toList = es.toList.map f
  | .nil => rfl
  | .cons e es => by
    simp [EdgeList.emap, EdgeList.toList, EdgeList.toList_emap f es]

theorem EdgeList.toList_replicate (e : Edge) :
    ∀ n : Nat, (EdgeList.replicate n e).toList = List.replicate n e
  | 0 => rfl
  | n + 1 => by
    simp [EdgeList.replicate, EdgeList.toList, EdgeList.toList_replicate e n,
      List.replicate]

theorem EdgeList.mem_zipWith {g : Edge → Edge → Edge} :
    ∀ {xs ys : EdgeList} {x : Edge}, x ∈ (EdgeList.zipWith g xs ys).toList →
      ∃ a b, a ∈ xs.toList ∧ b ∈ ys.toList ∧ x = g a b
  | .nil, _, x => by
    intro h; simp [EdgeList.zipWith, EdgeList.toList] at h
  | .cons e es, .nil, x => by
    intro h; simp [EdgeList.zipWith, EdgeList.toList] at h
  | .cons e es, .cons f fs, x => by
    intro h
    simp only [EdgeList.zipWith, EdgeList.toList, List.mem_cons] at h
    cases h with
    | inl h =>
      exact ⟨e, f, by simp [EdgeList.toList], by simp [EdgeList.toList], h⟩
    | inr h =>
      obtain ⟨a, b, ha, hb, hx⟩ := EdgeList.mem_zipWith h
      exact ⟨a, b, by simp [EdgeList.toList, ha], by simp [EdgeList.toList, hb], hx⟩

/-- The Shannon reduction step preserves well-formedness. -/
theorem WfN.shannon {n : Node} (h : WfN n) : WfN (perform_shannon_reduction n) := by
  match n with
  | .mk l .nil => exact h
  | .mk l (.cons c rest) =>
    rw [perform_shannon_reduction]
    split
    · exact h.children_wf c (by simp [EdgeList.toList])
    · exact h

/-- Elements produced by `_determine_children_on_same_level` have
well-formed successors. -/
theorem wf_determine {e1 e2 : Edge} (h1 : WfE e1) :
    ∀ c ∈ (determine_children_on_same_level e1 e2).toList, WfN c.succ := by
  intro c hc
  rw [determine_children_on_same_level] at hc
  split at hc
  · rw [EdgeList.toList_emap] at hc
    obtain ⟨a, ha, rfl⟩ := List.mem_map.mp hc
    match e1, h1 with
    | .mk w1 (.mk l1 cs1), h1 => exact WfN.children_wf h1 a ha
  · rw [EdgeList.toList_replicate] at hc
    rw [List.eq_of_mem_replicate hc]
    exact h1

/-- If `_determine_children_on_same_level` returns the empty list on
well-formed inputs, both top nodes are sinks (level 0). -/
theorem determine_nil {e1 e2 : Edge} (h1 : WfE e1) (h2 : WfE e2)
    (h : determine_children_on_same_level e1 e2 = .nil) :
    e1.succ.level = 0 ∧ e2.succ.level = 0 := by
  by_cases hle : e2.succ.level ≤ e1.succ.level
  · rw [determine_children_on_same_level, if_pos hle] at h
    match e1, h1 with
    | .mk w1 (.mk l1 .nil), h1 =>
      cases h1
      have hred : (Edge.mk w1 (Node.mk 0 .nil)).succ.level = 0 := rfl
      rw [hred] at hle
      exact ⟨rfl, Nat.le_zero.mp hle⟩
    | .mk w1 (.mk l1 (.cons c cs)), h1 =>
      simp [Edge.succ, Node.children, EdgeList.emap] at h
  · rw [determine_children_on_same_level, if_neg hle] at h
    match e2, h2 with
    | .mk w2 (.mk l2 .nil), h2 =>
      cases h2
      exact absurd (by simp [Edge.succ, Node.level]) hle
    | .mk w2 (.mk l2 (.cons c cs)), h2 =>
      exfalso
      simp only [Edge.succ, Node.children, EdgeList.length] at h
      rw [Nat.add_comm] at h
      simp [EdgeList.replicate] at h

theorem EdgeList.emap_eq_nil {g : Edge → Edge} {xs : EdgeList}
    (h : EdgeList.emap g xs = .nil) : xs = .nil := by
  cases xs with
  | nil => rfl
  | cons e es => simp [EdgeList.emap] at h

theorem EdgeList.zipWith_eq_nil {g : Edge → Edge → Edge} {xs ys : EdgeList}
    (h : EdgeList.zipWith g xs ys = .nil) : xs = .nil ∨ ys = .nil := by
  cases xs with
  | nil => exact Or.inl rfl
  | cons e es =>
    cases ys with
    | nil => exact Or.inr rfl
    | cons f fs => simp [EdgeList.zipWith] at h

theorem WfN_mk_of (l : Nat) (cs : EdgeList) (hne : cs ≠ .nil)
    (h : ∀ x ∈ cs.toList, WfN x.succ) : WfN (Node.mk l cs) := by
  cases cs with
  | nil => exact absurd rfl hne
  | cons c cs2 => exact WfN.branch l c cs2 h

/-- `Edge._apply` preserves well-formedness at every fuel, for both modes
and all three operators. -/
theorem wf_applyFuel (fr : Bool) :
    ∀ (f : Nat) (oper : Oper) (e1 e2 : Edge), WfE e1 → WfE e2 →
      WfE (applyFuel fr f oper e1 e2) := by
  intro f
  induction f with
  | zero =>
    intro oper e1 e2 h1 h2
    exact WfN.sink
  | succ f ih =>
    intro oper e1 e2 h1 h2
    rw [applyFuel]
    by_cases hterm : is_terminal_case e1 e2 oper = true
    · simp only [if_pos hterm]
      cases oper with
      | add =>
        by_cases hs : e1.succ.is_sink_node = true
        · simp only [if_pos hs]; exact h2
        · simp only [if_neg hs]; exact h1
      | sub =>
        by_cases hs : e1.succ.is_sink_node = true
        · simp only [if_pos hs]; exact h2
        · simp only [if_neg hs]; exact h1
      | mul =>
        by_cases hs1 : e1.succ.is_sink_node = true
        · simp only [if_pos hs1]
          by_cases hs2 : e2.succ.is_sink_node = true
          · simp only [if_pos hs2]; exact h2
          · simp only [if_neg hs2]
            match e2, h2, hs2 with
            | .mk w2 (.mk l2 (.cons c cs)), h2, hs2 =>
              have hrs : WfN (Node.mk l2
                  (EdgeList.emap (fun child => applyFuel fr f .mul e1 child)
                    (EdgeList.cons c cs))) := by
                apply WfN_mk_of _ _ (by simp [EdgeList.emap])
                intro x hx
                rw [EdgeList.toList_emap] at hx
                obtain ⟨a, ha, rfl⟩ := List.mem_map.mp hx
                exact ih .mul e1 a h1 (h2.children_wf a ha)
              cases fr with
              | true => exact WfN.shannon hrs
              | false => exact hrs
        · simp only [if_neg hs1]
          have hs2 : e2.succ.is_sink_node = true := by
            cases hsk : e1.succ.is_sink_node <;>
              cases hsk2 : e2.succ.is_sink_node <;>
              simp_all [is_terminal_case]
          match e1, h1, hs1 with
          | .mk w1 (.mk l1 (.cons c cs)), h1, hs1 =>
            have hrs : WfN (Node.mk l1
                (EdgeList.emap (fun child => applyFuel fr f .mul e2 child)
                  (EdgeList.cons c cs))) := by
              apply WfN_mk_of _ _ (by simp [EdgeList.emap])
              intro x hx
              rw [EdgeList.toList_emap] at hx
              obtain ⟨a, ha, rfl⟩ := List.mem_map.mp hx
              exact ih .mul e2 a h2 (h1.children_wf a ha)
            cases fr with
            | true => exact WfN.shannon hrs
            | false => exact hrs
    · simp only [if_neg hterm]
      have hch : ∀ x ∈ (EdgeList.zipWith (applyFuel fr f oper)
          (determine_children_on_same_level e1 e2)
          (determine_children_on_same_level e2 e1)).toList, WfN x.succ := by
        intro x hx
        obtain ⟨a, b, ha, hb, rfl⟩ := EdgeList.mem_zipWith hx
        exact ih oper a b (wf_determine h1 a ha) (wf_determine h2 b hb)
      set children := EdgeList.zipWith (applyFuel fr f oper)
          (determine_children_on_same_level e1 e2)
          (determine_children_on_same_level e2 e1) with hchdef
      have hrs : WfN (Node.mk (max e1.succ.level e2.succ.level)
          (EdgeList.emap
            (fun c => Edge.mk (c.weight - minWeight children) c.succ) children)) := by
        cases hc2 : EdgeList.emap
            (fun c => Edge.mk (c.weight - minWeight children) c.succ) children with
        | nil =>
          have hnil : children = .nil := EdgeList.emap_eq_nil hc2
          have hlvl : e1.succ.level = 0 ∧ e2.succ.level = 0 := by
            rcases EdgeList.zipWith_eq_nil (hchdef ▸ hnil) with hd1 | hd2
            · exact determine_nil h1 h2 hd1
            · exact (And.comm.mp (determine_nil h2 h1 hd2))
          rw [hlvl.1, hlvl.2]
          exact WfN.sink
        | cons c2 cs2 =>
          rw [← hc2]
          apply WfN_mk_of _ _ (by rw [hc2]; simp)
          intro x hx
          rw [EdgeList.toList_emap] at hx
          obtain ⟨a, ha, rfl⟩ := List.mem_map.mp hx
          exact hch a ha
      cases fr with
      | true => exact WfN.shannon hrs
      | false => exact hrs

theorem is_terminal_comm (e1 e2 : Edge) (oper : Oper) (h : oper = .add ∨ oper = .mul) :
    is_terminal_case e1 e2 oper = is_terminal_case e2 e1 oper := by
  rcases h with rfl | rfl <;> simp [is_terminal_case, Bool.or_comm]

theorem EdgeList.zipWith_comm (g : Edge → Edge → Edge) :
    ∀ (xs ys : EdgeList), (∀ a ∈ xs.toList, ∀ b ∈ ys.toList, g a b = g b a) →
      EdgeList.zipWith g xs ys = EdgeList.zipWith g ys xs
  | .nil, .nil, _ => rfl
  | .nil, .cons _ _, _ => rfl
  | .cons _ _, .nil, _ => rfl
  | .cons e es, .cons f fs, h => by
    simp only [EdgeList.zipWith]
    rw [h e (by simp [EdgeList.toList]) f (by simp [EdgeList.toList]),
      EdgeList.zipWith_comm g es fs
        (fun a ha b hb =>
          h a (by simp [EdgeList.toList, ha]) b (by simp [EdgeList.toList, hb]))]

/-- Commutativity of `Edge._apply` for `+` and `*` on well-formed operands,
at every fuel. -/
theorem applyFuel_comm (fr : Bool) (oper : Oper) (hop : oper = .add ∨ oper = .mul) :
    ∀ (f : Nat) (e1 e2 : Edge), WfE e1 → WfE e2 →
      applyFuel fr f oper e1 e2 = applyFuel fr f oper e2 e1 := by
  intro f
  induction f with
  | zero => intro e1 e2 _ _; rfl
  | succ f ih =>
    intro e1 e2 h1 h2
    rw [applyFuel, applyFuel]
    by_cases hterm : is_terminal_case e1 e2 oper = true
    · have hterm2 : is_terminal_case e2 e1 oper = true := by
        rw [is_terminal_comm e2 e1 oper hop]; exact hterm
      simp only [if_pos hterm, if_pos hterm2]
      rcases hop with rfl | rfl
      · by_cases hs1 : e1.succ.is_sink_node = true <;>
          by_cases hs2 : e2.succ.is_sink_node = true
        · have h1e : e1.succ = Node.mk 0 .nil := wf_sink_eq h1 hs1
          have h2e : e2.succ = Node.mk 0 .nil := wf_sink_eq h2 hs2
          simp only [if_pos hs1, if_pos hs2, h1e, h2e, aggregate_weights]
          rw [Int.add_comm]
        · simp only [if_pos hs1, if_neg hs2, aggregate_weights]
          rw [Int.add_comm]
        · simp only [if_neg hs1, if_pos hs2, aggregate_weights]
          rw [Int.add_comm]
        · exfalso
          simp [is_terminal_case, hs1, hs2] at hterm
      · by_cases hs1 : e1.succ.is_sink_node = true <;>
          by_cases hs2 : e2.succ.is_sink_node = true
        · have h1e : e1.succ = Node.mk 0 .nil := wf_sink_eq h1 hs1
          have h2e : e2.succ = Node.mk 0 .nil := wf_sink_eq h2 hs2
          simp [h1e, h2e, Node.is_sink_node, aggregate_weights, Int.mul_comm]
        · simp only [if_pos hs1, if_neg hs2, aggregate_weights]
          rw [Int.mul_comm]
        · simp only [if_neg hs1, if_pos hs2, aggregate_weights]
          rw [Int.mul_comm]
        · exfalso
          simp [is_terminal_case, hs1, hs2] at hterm
    · have hterm2 : ¬is_terminal_case e2 e1 oper = true := by
        rw [is_terminal_comm e2 e1 oper hop]; exact hterm
      simp only [if_neg hterm, if_neg hterm2]
      have hzip : EdgeList.zipWith (applyFuel fr f oper)
            (determine_children_on_same_level e1 e2)
            (determine_children_on_same_level e2 e1) =
          EdgeList.zipWith (applyFuel fr f oper)
            (determine_children_on_same_level e2 e1)
            (determine_children_on_same_level e1 e2) :=
        EdgeList.zipWith_comm _ _ _
          (fun a ha b hb => ih a b (wf_determine h1 a ha) (wf_determine h2 b hb))
      rw [hzip, Nat.max_comm]

theorem EdgeList.toList_ofList : ∀ xs : List Edge, (EdgeList.ofList xs).toList = xs
  | [] => rfl
  | x :: xs => by simp [EdgeList.ofList, EdgeList.toList, EdgeList.toList_ofList xs]

theorem EdgeList.ofList_eq_nil {xs : List Edge} (h : EdgeList.ofList xs = .nil) :
    xs = [] := by
  cases xs with
  | nil => rfl
  | cons x xs => simp [EdgeList.ofList] at h

theorem wf_rangeChildren (l d : Nat) (hd : 1 ≤ d) :
    WfN (Node.mk l (rangeChildren d)) := by
  apply WfN_mk_of
  · intro hnil
    have := EdgeList.ofList_eq_nil hnil
    simp [List.map_eq_nil_iff, List.range_eq_nil] at this
    omega
  · intro x hx
    rw [rangeChildren, EdgeList.toList_ofList] at hx
    obtain ⟨i, _, rfl⟩ := List.mem_map.mp hx
    exact WfN.sink

theorem wf_make_var {m : EvmddManager} (hd : ∀ d ∈ m.var_domains, 1 ≤ d)
    {s : String} {e : Edge} (h : m.make_var_evmdd_for_var s = .ok e) : WfE e := by
  rw [EvmddManager.make_var_evmdd_for_var] at h
  rw [EvmddManager.var_name_to_level] at h
  by_cases hmem : s ∈ m.var_names
  · rw [if_pos hmem] at h
    simp only [Bind.bind, Except.bind] at h
    rw [EvmddManager.make_var_evmdd_for_level] at h
    rw [EvmddManager.level_to_domain_size] at h
    by_cases hg : 1 ≤ m.var_names.length - m.var_names.indexOf s ∧
        m.var_names.length - m.var_names.indexOf s ≤ m.var_domains.length
    · rw [if_pos hg] at h
      simp only [Bind.bind, Except.bind, pure, Except.pure] at h
      have hlt : m.var_domains.length -
          (m.var_names.length - m.var_names.indexOf s) < m.var_domains.length := by
        omega
      have hmemd : m.var_domains.getD
          (m.var_domains.length - (m.var_names.length - m.var_names.indexOf s)) 0 ∈
          m.var_domains := by
        rw [List.getD_eq_getElem?_getD, List.getElem?_eq_getElem hlt]
        exact List.getElem_mem hlt
      have hd1 := hd _ hmemd
      injection h with he
      rw [← he]
      exact wf_rangeChildren _ _ hd1
    · rw [if_neg hg] at h
      simp [Bind.bind, Except.bind] at h
  · rw [if_neg hmem] at h
    simp [Bind.bind, Except.bind] at h

/-- Every EVMDD the term compiler produces (over a manager with positive
domain sizes) is well-formed. -/
theorem wf_to_evmdd {m : EvmddManager} (hd : ∀ d ∈ m.var_domains, 1 ≤ d) :
    ∀ (t : Term) (e : Edge), to_evmdd_rec m t = .ok e → WfE e := by
  intro t
  induction t with
  | num n =>
    intro e h
    simp only [to_evmdd_rec, EvmddManager.make_const_evmdd, pure, Except.pure,
      Except.ok.injEq] at h
    rw [← h]
    exact WfN.sink
  | var s =>
    intro e h
    exact wf_make_var hd (by simpa [to_evmdd_rec] using h)
  | add t u iht ihu =>
    intro e h
    simp only [to_evmdd_rec, Bind.bind, Except.bind] at h
    cases ht : to_evmdd_rec m t with
    | error msg => rw [ht] at h; simp at h
    | ok a =>
      rw [ht] at h
      cases hu : to_evmdd_rec m u with
      | error msg => rw [hu] at h; simp at h
      | ok b =>
        rw [hu] at h
        simp only [pure, Except.pure, Except.ok.injEq] at h
        rw [← h]
        exact wf_applyFuel _ _ _ _ _ (iht a ht) (ihu b hu)
  | sub t u iht ihu =>
    intro e h
    simp only [to_evmdd_rec, Bind.bind, Except.bind] at h
    cases ht : to_evmdd_rec m t with
    | error msg => rw [ht] at h; simp at h
    | ok a =>
      rw [ht] at h
      cases hu : to_evmdd_rec m u with
      | error msg => rw [hu] at h; simp at h
      | ok b =>
        rw [hu] at h
        simp only [pure, Except.pure, Except.ok.injEq] at h
        rw [← h]
        exact wf_applyFuel _ _ _ _ _ (iht a ht) (ihu b hu)
  | mul t u iht ihu =>
    intro e h
    simp only [to_evmdd_rec, Bind.bind, Except.bind] at h
    cases ht : to_evmdd_rec m t with
    | error msg => rw [ht] at h; simp at h
    | ok a =>
      rw [ht] at h
      cases hu : to_evmdd_rec m u with
      | error msg => rw [hu] at h; simp at h
      | ok b =>
        rw [hu] at h
        simp only [pure, Except.pure, Except.ok.injEq] at h
        rw [← h]
        exact wf_applyFuel _ _ _ _ _ (iht a ht) (ihu b hu)
  | neg t iht =>
    intro e h
    simp only [to_evmdd_rec, Bind.bind, Except.bind] at h
    cases ht : to_evmdd_rec m t with
    | error msg => rw [ht] at h; simp at h
    | ok a =>
      rw [ht] at h
      simp only [pure, Except.pure, Except.ok.injEq] at h
      rw [← h]
      exact wf_applyFuel _ _ _ _ _ WfN.sink (iht a ht)

/-- C7 (confirmed): over a shared manager (either mode, positive domain
sizes), the compiled EVMDDs of `t + u` and `u + t` are the identical
interned edge, and likewise for `t * u` and `u * t`. -/
theorem c7_commutativity (m : EvmddManager) (t u : Term) (a b : Edge)
    (hd : ∀ d ∈ m.var_domains, 1 ≤ d)
    (ht : to_evmdd_rec m t = .ok a) (hu : to_evmdd_rec m u = .ok b) :
    to_evmdd_rec m (.add t u) = .ok (applyE m.fully_reduced .add a b) ∧
    to_evmdd_rec m (.mul t u) = .ok (applyE m.fully_reduced .mul a b) ∧
    to_evmdd_rec m (.add t u) = to_evmdd_rec m (.add u t) ∧
    to_evmdd_rec m (.mul t u) = to_evmdd_rec m (.mul u t) := by
  have ha := wf_to_evmdd hd t a ht
  have hb := wf_to_evmdd hd u b hu
  have hcomm : ∀ op : Oper, op = Oper.add ∨ op = Oper.mul →
      applyE m.fully_reduced op a b = applyE m.fully_reduced op b a := by
    intro op hop
    rw [applyE, applyE, applyFuel_comm m.fully_reduced op hop _ a b ha hb,
      Nat.add_comm a.esize b.esize]
  refine ⟨?_, ?_, ?_, ?_⟩
  · simp [to_evmdd_rec, ht, hu, Bind.bind, Except.bind, pure, Except.pure]
  · simp [to_evmdd_rec, ht, hu, Bind.bind, Except.bind, pure, Except.pure]
  · simp only [to_evmdd_rec, ht, hu, Bind.bind, Except.bind, pure, Except.pure]
    rw [hcomm .add (Or.inl rfl)]
  · simp only [to_evmdd_rec, ht, hu, Bind.bind, Except.bind, pure, Except.pure]
    rw [hcomm .mul (Or.inr rfl)]

/-- Witness for C7: `A + B` and `B + A` (and `A * B`, `B * A`) over the
fully-reduced manager on `["A", "B"]` with domains `[2, 2]`. -/
theorem c7_commutativity_witness :
    to_evmdd_rec ⟨["A", "B"], [2, 2], true⟩ (.add (.var "A") (.var "B")) =
      .ok (applyE true .add
        (Edge.mk 0 (Node.mk 2 (.cons (Edge.mk 0 make_sink_node)
          (.cons (Edge.mk 1 make_sink_node) .nil))))
        (Edge.mk 0 (Node.mk 1 (.cons (Edge.mk 0 make_sink_node)
          (.cons (Edge.mk 1 make_sink_node) .nil))))) ∧
    to_evmdd_rec ⟨["A", "B"], [2, 2], true⟩ (.mul (.var "A") (.var "B")) =
      .ok (applyE true .mul
        (Edge.mk 0 (Node.mk 2 (.cons (Edge.mk 0 make_sink_node)
          (.cons (Edge.mk 1 make_sink_node) .nil))))
        (Edge.mk 0 (Node.mk 1 (.cons (Edge.mk 0 make_sink_node)
          (.cons (Edge.mk 1 make_sink_node) .nil))))) ∧
    to_evmdd_rec ⟨["A", "B"], [2, 2], true⟩ (.add (.var "A") (.var "B")) =
      to_evmdd_rec ⟨["A", "B"], [2, 2], true⟩ (.add (.var "B") (.var "A")) ∧
    to_evmdd_rec ⟨["A", "B"], [2, 2], true⟩ (.mul (.var "A") (.var "B")) =
      to_evmdd_rec ⟨["A", "B"], [2, 2], true⟩ (.mul (.var "B") (.var "A")) :=
  c7_commutativity ⟨["A", "B"], [2, 2], true⟩ (.var "A") (.var "B")
    (Edge.mk 0 (Node.mk 2 (.cons (Edge.mk 0 make_sink_node)
      (.cons (Edge.mk 1 make_sink_node) .nil))))
    (Edge.mk 0 (Node.mk 1 (.cons (Edge.mk 0 make_sink_node)
      (.cons (Edge.mk 1 make_sink_node) .nil))))
    (by decide) (by decide) (by decide)

/-! ### The fully-reduced invariant

In fully-reduced mode, every branch node the library builds (over domain
sizes at least 2) has at least one child differing from the first (else the
Shannon reduction would have collapsed it), carries a positive level, and
its childless descendants are the level-0 sink.  `GoodN` captures this
hereditarily. -/

inductive GoodN : Node → Prop where
  | sink : GoodN (Node.mk 0 .nil)
  | branch : ∀ (l : Nat) (e : Edge) (es : EdgeList),
      1 ≤ l →
      ¬(∀ x ∈ (EdgeList.cons e es).toList, x = e) →
      (∀ c ∈ (EdgeList.cons e es).toList, GoodN c.succ) →
      GoodN (Node.mk l (.cons e es))

def GoodE (e : Edge) : Prop := GoodN e.succ

theorem good_sink_eq {n : Node} (h : GoodN n) (hs : n.is_sink_node = true) :
    n = Node.mk 0 .nil := by
  cases h with
  | sink => rfl
  | branch l e es _ _ _ => simp [Node.is_sink_node] at hs

theorem GoodN.children_good {l : Nat} {cs : EdgeList} (h : GoodN (Node.mk l cs)) :
    ∀ c ∈ cs.toList, GoodN c.succ := by
  cases h with
  | sink => simp [EdgeList.toList]
  | branch _ e es _ _ hh => exact hh

theorem GoodN.level_pos {l : Nat} {c : Edge} {cs : EdgeList}
    (h : GoodN (Node.mk l (.cons c cs))) : 1 ≤ l := by
  cases h with
  | branch _ _ _ hl _ _ => exact hl

theorem GoodN.not_allEq {l : Nat} {c : Edge} {cs : EdgeList}
    (h : GoodN (Node.mk l (.cons c cs))) :
    ¬(∀ x ∈ (EdgeList.cons c cs).toList, x = c) := by
  cases h with
  | branch _ _ _ _ hne _ => exact hne

theorem goodN_toWf {n : Node} (h : GoodN n) : WfN n := by
  induction h with
  | sink => exact WfN.sink
  | branch l e es hl hne hch ih => exact WfN.branch l e es ih

theorem goodE_toWf {e : Edge} (h : GoodE e) : WfE e := goodN_toWf h

theorem EdgeList.all_iff (p : Edge → Bool) :
    ∀ cs : EdgeList, EdgeList.all p cs = true ↔ ∀ x ∈ cs.toList, p x = true
  | .nil => by simp [EdgeList.all, EdgeList.toList]
  | .cons e es => by
    simp [EdgeList.all, EdgeList.toList, EdgeList.all_iff p es]

/-- If all children equal the first one, the Shannon step skips the node. -/
theorem shannon_collapse {l : Nat} {c : Edge} {cs : EdgeList}
    (h : ∀ x ∈ (EdgeList.cons c cs).toList, x = c) :
    perform_shannon_reduction (Node.mk l (.cons c cs)) = c.succ := by
  rw [perform_shannon_reduction]
  rw [if_pos]
  rw [Bool.and_eq_true]
  constructor
  · rw [EdgeList.all_iff]
    intro x hx
    rw [h x (by simpa [Node.children] using hx)]
    simp
  · rw [EdgeList.all_iff]
    intro x hx
    rw [h x (by simpa [Node.children] using hx)]
    exact (node_beq_iff _ _).mpr rfl

/-- If some child differs from the first one, the Shannon step keeps the
node. -/
theorem shannon_keep {l : Nat} {c : Edge} {cs : EdgeList}
    (h : ¬∀ x ∈ (EdgeList.cons c cs).toList, x = c) :
    perform_shannon_reduction (Node.mk l (.cons c cs)) = Node.mk l (.cons c cs) := by
  rw [perform_shannon_reduction]
  rw [if_neg]
  intro hcond
  rw [Bool.and_eq_true] at hcond
  apply h
  intro x hx
  have hw := (EdgeList.all_iff _ _).mp hcond.1 x (by simpa [Node.children] using hx)
  have hs := (EdgeList.all_iff _ _).mp hcond.2 x (by simpa [Node.children] using hx)
  have hw2 : x.weight = c.weight := by simpa using hw
  have hs2 : x.succ = c.succ := (node_beq_iff _ _).mp hs
  match x, c, hw2, hs2 with
  | .mk w1 s1, .mk w2 s2, hw2, hs2 =>
    simp only [Edge.weight, Edge.succ] at hw2 hs2
    rw [hw2, hs2]

/-- The Shannon step sends good inputs to good outputs. -/
theorem good_shannon_mk {l : Nat} {c : Edge} {cs : EdgeList} (hl : 1 ≤ l)
    (hch : ∀ x ∈ (EdgeList.cons c cs).toList, GoodN x.succ) :
    GoodN (perform_shannon_reduction (Node.mk l (.cons c cs))) := by
  by_cases hall : ∀ x ∈ (EdgeList.cons c cs).toList, x = c
  · rw [shannon_collapse hall]
    exact hch c (by simp [EdgeList.toList])
  · rw [shannon_keep hall]
    exact GoodN.branch l c cs hl hall hch

/-- Elements produced by `_determine_children_on_same_level` have good
successors when the operands do. -/
theorem good_determine {e1 e2 : Edge} (h1 : GoodE e1) :
    ∀ c ∈ (determine_children_on_same_level e1 e2).toList, GoodN c.succ := by
  intro c hc
  rw [determine_children_on_same_level] at hc
  split at hc
  · rw [EdgeList.toList_emap] at hc
    obtain ⟨a, ha, rfl⟩ := List.mem_map.mp hc
    match e1, h1 with
    | .mk w1 (.mk l1 cs1), h1 => exact GoodN.children_good h1 a ha
  · rw [EdgeList.toList_replicate] at hc
    rw [List.eq_of_mem_replicate hc]
    exact h1

theorem good_branch_level {e : Edge} (h : GoodE e)
    (hs : e.succ.is_sink_node = false) : 1 ≤ e.succ.level := by
  match e with
  | .mk w (.mk l .nil) => simp [Node.is_sink_node, Edge.succ] at hs
  | .mk w (.mk l (.cons c cs)) =>
    exact GoodN.level_pos (by exact h)

/-- In fully-reduced mode, `Edge._apply` preserves the fully-reduced
invariant at every fuel. -/
theorem good_applyFuel :
    ∀ (f : Nat) (oper : Oper) (e1 e2 : Edge), GoodE e1 → GoodE e2 →
      GoodE (applyFuel true f oper e1 e2) := by
  intro f
  induction f with
  | zero =>
    intro oper e1 e2 h1 h2
    exact GoodN.sink
  | succ f ih =>
    intro oper e1 e2 h1 h2
    rw [applyFuel]
    by_cases hterm : is_terminal_case e1 e2 oper = true
    · simp only [if_pos hterm]
      cases oper with
      | add =>
        by_cases hs : e1.succ.is_sink_node = true
        · simp only [if_pos hs]; exact h2
        · simp only [if_neg hs]; exact h1
      | sub =>
        by_cases hs : e1.succ.is_sink_node = true
        · simp only [if_pos hs]; exact h2
        · simp only [if_neg hs]; exact h1
      | mul =>
        by_cases hs1 : e1.succ.is_sink_node = true
        · simp only [if_pos hs1]
          by_cases hs2 : e2.succ.is_sink_node = true
          · simp only [if_pos hs2]; exact h2
          · simp only [if_neg hs2, if_pos rfl]
            match e2, h2, hs2 with
            | .mk w2 (.mk l2 (.cons c cs)), h2, hs2 =>
              have hl2 : 1 ≤ l2 := GoodN.level_pos (by exact h2)
              exact good_shannon_mk hl2 (by
                intro x hx
                have hx2 : x ∈ (EdgeList.emap
                    (fun child => applyFuel true f .mul e1 child)
                    (EdgeList.cons c cs)).toList := hx
                rw [EdgeList.toList_emap] at hx2
                obtain ⟨a, ha, rfl⟩ := List.mem_map.mp hx2
                exact ih .mul e1 a h1 (GoodN.children_good (by exact h2) a ha))
        · simp only [if_neg hs1, if_pos rfl]
          match e1, h1, hs1 with
          | .mk w1 (.mk l1 (.cons c cs)), h1, hs1 =>
            have hl1 : 1 ≤ l1 := GoodN.level_pos (by exact h1)
            exact good_shannon_mk hl1 (by
              intro x hx
              have hx2 : x ∈ (EdgeList.emap
                  (fun child => applyFuel true f .mul e2 child)
                  (EdgeList.cons c cs)).toList := hx
              rw [EdgeList.toList_emap] at hx2
              obtain ⟨a, ha, rfl⟩ := List.mem_map.mp hx2
              exact ih .mul e2 a h2 (GoodN.children_good (by exact h1) a ha))
    · simp only [if_neg hterm, if_pos rfl]
      have hch : ∀ x ∈ (EdgeList.zipWith (applyFuel true f oper)
          (determine_children_on_same_level e1 e2)
          (determine_children_on_same_level e2 e1)).toList, GoodN x.succ := by
        intro x hx
        obtain ⟨a, b, ha, hb, rfl⟩ := EdgeList.mem_zipWith hx
        exact ih oper a b (good_determine h1 a ha) (good_determine h2 b hb)
      set children := EdgeList.zipWith (applyFuel true f oper)
          (determine_children_on_same_level e1 e2)
          (determine_children_on_same_level e2 e1) with hchdef
      have hlvl : 1 ≤ max e1.succ.level e2.succ.level := by
        cases oper with
        | add =>
          have : e1.succ.is_sink_node = false := by
            simp [is_terminal_case] at hterm
            exact hterm.1
          have := good_branch_level h1 this
          omega
        | mul =>
          have : e1.succ.is_sink_node = false := by
            simp [is_terminal_case] at hterm
            exact hterm.1
          have := good_branch_level h1 this
          omega
        | sub =>
          have hsf : e2.succ.is_sink_node = false := by
            simp [is_terminal_case] at hterm
            exact hterm
          have := good_branch_level h2 hsf
          omega
      cases hc2 : EdgeList.emap
          (fun c => Edge.mk (c.weight - minWeight children) c.succ) children with
      | nil =>
        exfalso
        have hnil : children = .nil := EdgeList.emap_eq_nil hc2
        have hlvl0 : e1.succ.level = 0 ∧ e2.succ.level = 0 := by
          rcases EdgeList.zipWith_eq_nil (hchdef ▸ hnil) with hd1 | hd2
          · exact determine_nil (goodE_toWf h1) (goodE_toWf h2) hd1
          · exact And.comm.mp (determine_nil (goodE_toWf h2) (goodE_toWf h1) hd2)
        rw [hlvl0.1, hlvl0.2] at hlvl
        simp at hlvl
      | cons c2 cs2 =>
        apply good_shannon_mk hlvl
        intro x hx
        rw [← hc2] at hx
        rw [EdgeList.toList_emap] at hx
        obtain ⟨a, ha, rfl⟩ := List.mem_map.mp hx
        exact hch a ha

theorem Edge.esize_pos (e : Edge) : 1 ≤ e.esize := by
  match e with
  | .mk w s => simp [Edge.esize]

theorem EdgeList.esize_le_lsize {c : Edge} :
    ∀ {cs : EdgeList}, c ∈ cs.toList → c.esize ≤ cs.lsize
  | .nil, h => by simp [EdgeList.toList] at h
  | .cons e es, h => by
    simp only [EdgeList.toList, List.mem_cons] at h
    rw [EdgeList.lsize]
    cases h with
    | inl h => rw [h]; omega
    | inr h => have := EdgeList.esize_le_lsize h; omega

theorem EdgeList.emap_congr_id {g : Edge → Edge} :
    ∀ {cs : EdgeList}, (∀ c ∈ cs.toList, g c = c) → EdgeList.emap g cs = cs
  | .nil, _ => rfl
  | .cons e es, h => by
    rw [EdgeList.emap, h e (by simp [EdgeList.toList]),
      EdgeList.emap_congr_id (fun c hc => h c (by simp [EdgeList.toList, hc]))]

theorem EdgeList.zipWith_self (g : Edge → Edge → Edge) :
    ∀ cs : EdgeList, EdgeList.zipWith g cs cs = EdgeList.emap (fun x => g x x) cs
  | .nil => rfl
  | .cons e es => by
    rw [EdgeList.zipWith, EdgeList.emap, EdgeList.zipWith_self g es]

theorem minWeight.minWeightAux_const {w : Int} :
    ∀ {cs : EdgeList}, (∀ x ∈ cs.toList, x.weight = w) →
      minWeight.minWeightAux cs w = w
  | .nil, _ => rfl
  | .cons e es, h => by
    rw [minWeight.minWeightAux, h e (by simp [EdgeList.toList]), min_self]
    exact minWeight.minWeightAux_const (fun x hx => h x (by simp [EdgeList.toList, hx]))

theorem minWeight_all_const0 {cs : EdgeList} (hne : cs ≠ .nil)
    (h : ∀ x ∈ cs.toList, x = make_const_evmdd 0) : minWeight cs = 0 := by
  cases cs with
  | nil => exact absurd rfl hne
  | cons c rest =>
    rw [minWeight]
    have hc : c.weight = 0 := by
      rw [h c (by simp [EdgeList.toList])]; rfl
    rw [hc]
    exact minWeight.minWeightAux_const
      (fun x hx => by rw [h x (by simp [EdgeList.toList, hx])]; rfl)

theorem shannon_all_const0 {lvl : Nat} {ch : EdgeList} (hne : ch ≠ .nil)
    (hall : ∀ x ∈ ch.toList, x = make_const_evmdd 0) :
    perform_shannon_reduction (Node.mk lvl ch) = make_sink_node := by
  cases ch with
  | nil => exact absurd rfl hne
  | cons c rest =>
    have hc : c = make_const_evmdd 0 := hall c (by simp [EdgeList.toList])
    rw [shannon_collapse (fun x hx => by rw [hall x hx, hc]), hc]
    rfl

theorem applyE_fuel (fr : Bool) (oper : Oper) (e1 e2 : Edge) :
    applyE fr oper e1 e2 =
      applyFuel fr ((e1.succ.nsize + e2.succ.nsize + 1) + 1) oper e1 e2 := by
  match e1, e2 with
  | .mk w1 s1, .mk w2 s2 =>
    have h : (Edge.mk w1 s1).esize + (Edge.mk w2 s2).esize =
        (((Edge.mk w1 s1).succ.nsize + (Edge.mk w2 s2).succ.nsize + 1) + 1) := by
      simp [Edge.esize, Edge.succ]
      omega
    rw [applyE, h]

/-- `const(0) * e = const(0)` at every sufficient fuel (fully reduced,
good operand). -/
theorem applyFuel_mul_c0 :
    ∀ (f : Nat) (e : Edge), GoodE e → e.esize ≤ f →
      applyFuel true f .mul (make_const_evmdd 0) e = make_const_evmdd 0 := by
  intro f
  induction f with
  | zero =>
    intro e hg hf
    have := e.esize_pos
    omega
  | succ f ih =>
    intro e hg hf
    match e, hg, hf with
    | .mk w (.mk l .nil), hg, hf =>
      cases hg
      have hstep : applyFuel true (f + 1) .mul (make_const_evmdd 0)
          (Edge.mk w (Node.mk 0 .nil)) = Edge.mk (0 * w) (Node.mk 0 .nil) := rfl
      rw [hstep]
      simp [make_const_evmdd, make_sink_node]
    | .mk w (.mk l (.cons c cs)), hg, hf =>
      have hstep : applyFuel true (f + 1) .mul (make_const_evmdd 0)
          (Edge.mk w (Node.mk l (.cons c cs))) =
        Edge.mk (0 * w)
          (perform_shannon_reduction (Node.mk l
            (EdgeList.emap
              (fun child => applyFuel true f .mul (make_const_evmdd 0) child)
              (.cons c cs)))) := rfl
      rw [hstep]
      have hall : ∀ x ∈ (EdgeList.emap
          (fun child => applyFuel true f .mul (make_const_evmdd 0) child)
          (EdgeList.cons c cs)).toList, x = make_const_evmdd 0 := by
        intro x hx
        rw [EdgeList.toList_emap] at hx
        obtain ⟨a, ha, rfl⟩ := List.mem_map.mp hx
        have hgood : GoodN a.succ := GoodN.children_good (by exact hg) a ha
        have hsz : a.esize ≤ f := by
          have h1 := EdgeList.esize_le_lsize ha
          have h2 : (Edge.mk w (Node.mk l (EdgeList.cons c cs))).esize =
              2 + (EdgeList.cons c cs).lsize := by
            simp [Edge.esize, Node.nsize]
            omega
          omega
        exact ih a hgood hsz
      rw [shannon_all_const0 (by simp [EdgeList.emap]) hall]
      simp [make_const_evmdd]

/-- `const(1) * e = e` at every sufficient fuel (fully reduced, good
operand). -/
theorem applyFuel_mul_c1 :
    ∀ (f : Nat) (e : Edge), GoodE e → e.esize ≤ f →
      applyFuel true f .mul (make_const_evmdd 1) e = e := by
  intro f
  induction f with
  | zero =>
    intro e hg hf
    have := e.esize_pos
    omega
  | succ f ih =>
    intro e hg hf
    match e, hg, hf with
    | .mk w (.mk l .nil), hg, hf =>
      have hstep : applyFuel true (f + 1) .mul (make_const_evmdd 1)
          (Edge.mk w (Node.mk l .nil)) = Edge.mk (1 * w) (Node.mk l .nil) := rfl
      rw [hstep]
      simp
    | .mk w (.mk l (.cons c cs)), hg, hf =>
      have hstep : applyFuel true (f + 1) .mul (make_const_evmdd 1)
          (Edge.mk w (Node.mk l (.cons c cs))) =
        Edge.mk (1 * w)
          (perform_shannon_reduction (Node.mk l
            (EdgeList.emap
              (fun child => applyFuel true f .mul (make_const_evmdd 1) child)
              (.cons c cs)))) := rfl
      rw [hstep]
      have hid : EdgeList.emap
          (fun child => applyFuel true f .mul (make_const_evmdd 1) child)
          (EdgeList.cons c cs) = EdgeList.cons c cs := by
        apply EdgeList.emap_congr_id
        intro a ha
        have hgood : GoodN a.succ := GoodN.children_good (by exact hg) a ha
        have hsz : a.esize ≤ f := by
          have h1 := EdgeList.esize_le_lsize ha
          have h2 : (Edge.mk w (Node.mk l (EdgeList.cons c cs))).esize =
              2 + (EdgeList.cons c cs).lsize := by
            simp [Edge.esize, Node.nsize]
            omega
          omega
        exact ih a hgood hsz
      rw [hid, shannon_keep (GoodN.not_allEq (by exact hg))]
      simp

/-- `e - e = const(0)` at every sufficient fuel (fully reduced, good
operand). -/
theorem applyFuel_sub_self :
    ∀ (f : Nat) (e : Edge), GoodE e → e.esize ≤ f →
      applyFuel true f .sub e e = make_const_evmdd 0 := by
  intro f
  induction f with
  | zero =>
    intro e hg hf
    have := e.esize_pos
    omega
  | succ f ih =>
    intro e hg hf
    match e, hg, hf with
    | .mk w (.mk l .nil), hg, hf =>
      cases hg
      have hstep : applyFuel true (f + 1) .sub (Edge.mk w (Node.mk 0 .nil))
          (Edge.mk w (Node.mk 0 .nil)) = Edge.mk (w - w) (Node.mk 0 .nil) := rfl
      rw [hstep]
      simp [make_const_evmdd, make_sink_node]
    | .mk w (.mk l (.cons c cs)), hg, hf =>
      rw [applyFuel]
      have hterm : ¬is_terminal_case (Edge.mk w (Node.mk l (.cons c cs)))
          (Edge.mk w (Node.mk l (.cons c cs))) .sub = true := by
        simp [is_terminal_case, Edge.succ, Node.is_sink_node]
      simp only [if_neg hterm, if_pos rfl]
      have hdet : determine_children_on_same_level
          (Edge.mk w (Node.mk l (.cons c cs)))
          (Edge.mk w (Node.mk l (.cons c cs))) =
        EdgeList.emap (fun child => Edge.mk (child.weight + w) child.succ)
          (.cons c cs) := by
        rw [determine_children_on_same_level, if_pos (le_refl _)]
        rfl
      rw [hdet, EdgeList.zipWith_self]
      have hall : ∀ x ∈ (EdgeList.emap (fun x => applyFuel true f .sub x x)
          (EdgeList.emap (fun child => Edge.mk (child.weight + w) child.succ)
            (EdgeList.cons c cs))).toList, x = make_const_evmdd 0 := by
        intro x hx
        rw [EdgeList.toList_emap, EdgeList.toList_emap] at hx
        rw [List.map_map] at hx
        obtain ⟨a, ha, rfl⟩ := List.mem_map.mp hx
        have hgood : GoodE (Edge.mk (a.weight + w) a.succ) :=
          GoodN.children_good (by exact hg) a ha
        have hsz : (Edge.mk (a.weight + w) a.succ).esize ≤ f := by
          have h1 := EdgeList.esize_le_lsize ha
          have h2 : (Edge.mk w (Node.mk l (EdgeList.cons c cs))).esize =
              2 + (EdgeList.cons c cs).lsize := by
            simp [Edge.esize, Node.nsize]
            omega
          have h3 : (Edge.mk (a.weight + w) a.succ).esize = a.esize := by
            match a with
            | .mk aw asucc => simp [Edge.esize, Edge.succ]
          omega
        exact ih (Edge.mk (a.weight + w) a.succ) hgood hsz
      have hne : EdgeList.emap (fun x => applyFuel true f .sub x x)
          (EdgeList.emap (fun child => Edge.mk (child.weight + w) child.succ)
            (EdgeList.cons c cs)) ≠ .nil := by
        simp [EdgeList.emap]
      rw [minWeight_all_const0 hne hall]
      have hall2 : ∀ x ∈ (EdgeList.emap (fun c2 => Edge.mk (c2.weight - 0) c2.succ)
          (EdgeList.emap (fun x => applyFuel true f .sub x x)
            (EdgeList.emap (fun child => Edge.mk (child.weight + w) child.succ)
              (EdgeList.cons c cs)))).toList, x = make_const_evmdd 0 := by
        intro x hx
        rw [EdgeList.toList_emap] at hx
        obtain ⟨a, ha, rfl⟩ := List.mem_map.mp hx
        rw [hall a ha]
        simp [make_const_evmdd, Edge.weight, Edge.succ]
      rw [shannon_all_const0 (by simp [EdgeList.emap]) hall2]
      rfl

theorem applyE_add_c0 {e : Edge} (hg : GoodE e) :
    applyE true .add e (make_const_evmdd 0) = e := by
  match e, hg with
  | .mk w (.mk l .nil), hg =>
    cases hg
    have hstep : applyE true .add (Edge.mk w (Node.mk 0 .nil)) (make_const_evmdd 0) =
        Edge.mk (w + 0) (Node.mk 0 .nil) := rfl
    rw [hstep]
    simp
  | .mk w (.mk l (.cons c cs)), hg =>
    rw [applyE_fuel]
    have hstep : applyFuel true
        (((Edge.mk w (Node.mk l (.cons c cs))).succ.nsize +
          (make_const_evmdd 0).succ.nsize + 1) + 1) .add
        (Edge.mk w (Node.mk l (.cons c cs))) (make_const_evmdd 0) =
        Edge.mk (w + 0) (Node.mk l (.cons c cs)) := rfl
    rw [hstep]
    simp

theorem applyE_mul_c1_right {e : Edge} (hg : GoodE e) :
    applyE true .mul e (make_const_evmdd 1) = e := by
  match e, hg with
  | .mk w (.mk l .nil), hg =>
    cases hg
    have hstep : applyE true .mul (Edge.mk w (Node.mk 0 .nil)) (make_const_evmdd 1) =
        Edge.mk (w * 1) (Node.mk 0 .nil) := rfl
    rw [hstep]
    simp
  | .mk w (.mk l (.cons c cs)), hg =>
    rw [applyE_fuel]
    have hstep : applyFuel true
        (((Edge.mk w (Node.mk l (.cons c cs))).succ.nsize +
          (make_const_evmdd 1).succ.nsize + 1) + 1) .mul
        (Edge.mk w (Node.mk l (.cons c cs))) (make_const_evmdd 1) =
        Edge.mk (w * 1)
          (perform_shannon_reduction (Node.mk l
            (EdgeList.emap
              (fun child => applyFuel true ((Node.mk l (.cons c cs)).nsize + 2)
                .mul (make_const_evmdd 1) child)
              (.cons c cs)))) := rfl
    rw [hstep]
    have hid : EdgeList.emap
        (fun child => applyFuel true ((Node.mk l (.cons c cs)).nsize + 2)
          .mul (make_const_evmdd 1) child)
        (EdgeList.cons c cs) = EdgeList.cons c cs := by
      apply EdgeList.emap_congr_id
      intro a ha
      have hgood : GoodN a.succ := GoodN.children_good (by exact hg) a ha
      have hsz : a.esize ≤ (Node.mk l (.cons c cs)).nsize + 2 := by
        have h1 := EdgeList.esize_le_lsize ha
        have h2 : (Node.mk l (EdgeList.cons c cs)).nsize =
            1 + (EdgeList.cons c cs).lsize := by
          simp [Node.nsize]
        omega
      exact applyFuel_mul_c1 _ a hgood hsz
    rw [hid, shannon_keep (GoodN.not_allEq (by exact hg))]
    simp

theorem applyE_mul_c0_right {e : Edge} (hg : GoodE e) :
    applyE true .mul e (make_const_evmdd 0) = make_const_evmdd 0 := by
  match e, hg with
  | .mk w (.mk l .nil), hg =>
    cases hg
    have hstep : applyE true .mul (Edge.mk w (Node.mk 0 .nil)) (make_const_evmdd 0) =
        Edge.mk (w * 0) (Node.mk 0 .nil) := rfl
    rw [hstep]
    simp [make_const_evmdd, make_sink_node]
  | .mk w (.mk l (.cons c cs)), hg =>
    rw [applyE_fuel]
    have hstep : applyFuel true
        (((Edge.mk w (Node.mk l (.cons c cs))).succ.nsize +
          (make_const_evmdd 0).succ.nsize + 1) + 1) .mul
        (Edge.mk w (Node.mk l (.cons c cs))) (make_const_evmdd 0) =
        Edge.mk (w * 0)
          (perform_shannon_reduction (Node.mk l
            (EdgeList.emap
              (fun child => applyFuel true ((Node.mk l (.cons c cs)).nsize + 2)
                .mul (make_const_evmdd 0) child)
              (.cons c cs)))) := rfl
    rw [hstep]
    have hall : ∀ x ∈ (EdgeList.emap
        (fun child => applyFuel true ((Node.mk l (.cons c cs)).nsize + 2)
          .mul (make_const_evmdd 0) child)
        (EdgeList.cons c cs)).toList, x = make_const_evmdd 0 := by
      intro x hx
      rw [EdgeList.toList_emap] at hx
      obtain ⟨a, ha, rfl⟩ := List.mem_map.mp hx
      have hgood : GoodN a.succ := GoodN.children_good (by exact hg) a ha
      have hsz : a.esize ≤ (Node.mk l (.cons c cs)).nsize + 2 := by
        have h1 := EdgeList.esize_le_lsize ha
        have h2 : (Node.mk l (EdgeList.cons c cs)).nsize =
            1 + (EdgeList.cons c cs).lsize := by
          simp [Node.nsize]
        omega
      exact applyFuel_mul_c0 _ a hgood hsz
    rw [shannon_all_const0 (by simp [EdgeList.emap]) hall]
    simp [make_const_evmdd]

theorem applyE_sub_self {e : Edge} (hg : GoodE e) :
    applyE true .sub e e = make_const_evmdd 0 := by
  rw [applyE]
  exact applyFuel_sub_self _ e hg (by have := e.esize_pos; omega)

theorem good_rangeChildren (l d : Nat) (hl : 1 ≤ l) (hd : 2 ≤ d) :
    GoodN (Node.mk l (rangeChildren d)) := by
  obtain ⟨k, rfl⟩ : ∃ k, d = k + 2 := ⟨d - 2, by omega⟩
  have hshape : rangeChildren (k + 2) =
      EdgeList.cons (Edge.mk 0 make_sink_node)
        (EdgeList.ofList (((List.range (k + 1)).map Nat.succ).map
          (fun v => Edge.mk (Int.ofNat v) make_sink_node))) := by
    rw [rangeChildren, List.range_succ_eq_map]
    rfl
  rw [hshape]
  apply GoodN.branch _ _ _ hl
  · intro hall
    have h1mem : Edge.mk 1 make_sink_node ∈
        (EdgeList.cons (Edge.mk 0 make_sink_node)
          (EdgeList.ofList (((List.range (k + 1)).map Nat.succ).map
            (fun v => Edge.mk (Int.ofNat v) make_sink_node)))).toList := by
      simp only [EdgeList.toList, List.mem_cons]
      right
      rw [EdgeList.toList_ofList]
      apply List.mem_map.mpr
      refine ⟨1, ?_, rfl⟩
      apply List.mem_map.mpr
      refine ⟨0, ?_, rfl⟩
      simp
    have := hall _ h1mem
    simp at this
  · intro x hx
    simp only [EdgeList.toList, List.mem_cons] at hx
    cases hx with
    | inl h => rw [h]; exact GoodN.sink
    | inr h =>
      rw [EdgeList.toList_ofList] at h
      obtain ⟨v, _, rfl⟩ := List.mem_map.mp h
      exact GoodN.sink

theorem good_make_var {m : EvmddManager} (hd : ∀ d ∈ m.var_domains, 2 ≤ d)
    {s : String} {e : Edge} (h : m.make_var_evmdd_for_var s = .ok e) : GoodE e := by
  rw [EvmddManager.make_var_evmdd_for_var] at h
  rw [EvmddManager.var_name_to_level] at h
  by_cases hmem : s ∈ m.var_names
  · rw [if_pos hmem] at h
    simp only [Bind.bind, Except.bind] at h
    rw [EvmddManager.make_var_evmdd_for_level] at h
    rw [EvmddManager.level_to_domain_size] at h
    by_cases hg : 1 ≤ m.var_names.length - m.var_names.indexOf s ∧
        m.var_names.length - m.var_names.indexOf s ≤ m.var_domains.length
    · rw [if_pos hg] at h
      simp only [Bind.bind, Except.bind, pure, Except.pure] at h
      have hlt : m.var_domains.length -
          (m.var_names.length - m.var_names.indexOf s) < m.var_domains.length := by
        omega
      have hmemd : m.var_domains.getD
          (m.var_domains.length - (m.var_names.length - m.var_names.indexOf s)) 0 ∈
          m.var_domains := by
        rw [List.getD_eq_getElem?_getD, List.getElem?_eq_getElem hlt]
        exact List.getElem_mem hlt
      have hd2 := hd _ hmemd
      injection h with he
      rw [← he]
      exact good_rangeChildren _ _ hg.1 hd2
    · rw [if_neg hg] at h
      simp [Bind.bind, Except.bind] at h
  · rw [if_neg hmem] at h
    simp [Bind.bind, Except.bind] at h

/-- In fully-reduced mode over a manager with domain sizes at least 2,
every compiled EVMDD satisfies the fully-reduced invariant. -/
theorem good_to_evmdd {m : EvmddManager} (hfr : m.fully_reduced = true)
    (hd : ∀ d ∈ m.var_domains, 2 ≤ d) :
    ∀ (t : Term) (e : Edge), to_evmdd_rec m t = .ok e → GoodE e := by
  intro t
  induction t with
  | num n =>
    intro e h
    simp only [to_evmdd_rec, EvmddManager.make_const_evmdd, pure, Except.pure,
      Except.ok.injEq] at h
    rw [← h]
    exact GoodN.sink
  | var s =>
    intro e h
    exact good_make_var hd (by simpa [to_evmdd_rec] using h)
  | add t u iht ihu =>
    intro e h
    simp only [to_evmdd_rec, Bind.bind, Except.bind] at h
    cases ht : to_evmdd_rec m t with
    | error msg => rw [ht] at h; simp at h
    | ok a =>
      rw [ht] at h
      cases hu : to_evmdd_rec m u with
      | error msg => rw [hu] at h; simp at h
      | ok b =>
        rw [hu] at h
        simp only [pure, Except.pure, Except.ok.injEq] at h
        rw [← h, applyE, hfr]
        exact good_applyFuel _ _ _ _ (iht a ht) (ihu b hu)
  | sub t u iht ihu =>
    intro e h
    simp only [to_evmdd_rec, Bind.bind, Except.bind] at h
    cases ht : to_evmdd_rec m t with
    | error msg => rw [ht] at h; simp at h
    | ok a =>
      rw [ht] at h
      cases hu : to_evmdd_rec m u with
      | error msg => rw [hu] at h; simp at h
      | ok b =>
        rw [hu] at h
        simp only [pure, Except.pure, Except.ok.injEq] at h
        rw [← h, applyE, hfr]
        exact good_applyFuel _ _ _ _ (iht a ht) (ihu b hu)
  | mul t u iht ihu =>
    intro e h
    simp only [to_evmdd_rec, Bind.bind, Except.bind] at h
    cases ht : to_evmdd_rec m t with
    | error msg => rw [ht] at h; simp at h
    | ok a =>
      rw [ht] at h
      cases hu : to_evmdd_rec m u with
      | error msg => rw [hu] at h; simp at h
      | ok b =>
        rw [hu] at h
        simp only [pure, Except.pure, Except.ok.injEq] at h
        rw [← h, applyE, hfr]
        exact good_applyFuel _ _ _ _ (iht a ht) (ihu b hu)
  | neg t iht =>
    intro e h
    simp only [to_evmdd_rec, Bind.bind, Except.bind] at h
    cases ht : to_evmdd_rec m t with
    | error msg => rw [ht] at h; simp at h
    | ok a =>
      rw [ht] at h
      simp only [pure, Except.pure, Except.ok.injEq] at h
      rw [← h, negE, applyE, hfr]
      exact good_applyFuel _ _ _ _ GoodN.sink (iht a ht)

/-- C6 counterexample: in quasi-reduced mode the identity `t - t = 0` fails
at the handle level.  Over the quasi-reduced manager on `["A"]` with
domains `[2]`, `A - A` compiles to an edge into an explicit level-1 node
with two zero-weight children, while `0` compiles to the bare sink edge —
two different handles denoting the same (zero) function. -/
theorem c6_identities_counterexample :
    to_evmdd_rec ⟨["A"], [2], false⟩ (.sub (.var "A") (.var "A")) =
      .ok (Edge.mk 0 (Node.mk 1 (.cons (Edge.mk 0 make_sink_node)
        (.cons (Edge.mk 0 make_sink_node) .nil)))) ∧
    to_evmdd_rec ⟨["A"], [2], false⟩ (.num 0) = .ok (make_const_evmdd 0) ∧
    Edge.mk 0 (Node.mk 1 (.cons (Edge.mk 0 make_sink_node)
      (.cons (Edge.mk 0 make_sink_node) .nil))) ≠ make_const_evmdd 0 := by
  refine ⟨by decide, by decide, by decide⟩

/-- C6 (amended): over a fully-reduced manager all of whose domain sizes
are at least 2, the four identity laws hold as handle equalities for every
compiled term `t`: `t + 0 = t`, `t * 1 = t`, `t * 0 = 0`, and `t - t = 0`.
(In quasi-reduced mode `t * 0` and `t - t` build explicit level chains
distinct from the level-skipping constant handle, and with a domain size of
1 the Shannon check can collapse `t * 1` below `t`.) -/
theorem c6_identities_amended (m : EvmddManager) (t : Term) (e : Edge)
    (hfr : m.fully_reduced = true) (hd : ∀ d ∈ m.var_domains, 2 ≤ d)
    (ht : to_evmdd_rec m t = .ok e) :
    to_evmdd_rec m (.add t (.num 0)) = to_evmdd_rec m t ∧
    to_evmdd_rec m (.mul t (.num 1)) = to_evmdd_rec m t ∧
    to_evmdd_rec m (.mul t (.num 0)) = to_evmdd_rec m (.num 0) ∧
    to_evmdd_rec m (.sub t t) = to_evmdd_rec m (.num 0) := by
  have hg : GoodE e := good_to_evmdd hfr hd t e ht
  refine ⟨?_, ?_, ?_, ?_⟩
  · simp only [to_evmdd_rec, ht, Bind.bind, Except.bind, pure, Except.pure, hfr,
      EvmddManager.make_const_evmdd]
    rw [applyE_add_c0 hg]
  · simp only [to_evmdd_rec, ht, Bind.bind, Except.bind, pure, Except.pure, hfr,
      EvmddManager.make_const_evmdd]
    rw [applyE_mul_c1_right hg]
  · simp only [to_evmdd_rec, ht, Bind.bind, Except.bind, pure, Except.pure, hfr,
      EvmddManager.make_const_evmdd]
    rw [applyE_mul_c0_right hg]
  · simp only [to_evmdd_rec, ht, Bind.bind, Except.bind, pure, Except.pure, hfr,
      EvmddManager.make_const_evmdd]
    rw [applyE_sub_self hg]

/-- Witness for C6 at the fully-reduced manager on `["A"]` with domains
`[2]` and the term `A`. -/
theorem c6_identities_amended_witness :
    to_evmdd_rec ⟨["A"], [2], true⟩ (.add (.var "A") (.num 0)) =
      to_evmdd_rec ⟨["A"], [2], true⟩ (.var "A") ∧
    to_evmdd_rec ⟨["A"], [2], true⟩ (.mul (.var "A") (.num 1)) =
      to_evmdd_rec ⟨["A"], [2], true⟩ (.var "A") ∧
    to_evmdd_rec ⟨["A"], [2], true⟩ (.mul (.var "A") (.num 0)) =
      to_evmdd_rec ⟨["A"], [2], true⟩ (.num 0) ∧
    to_evmdd_rec ⟨["A"], [2], true⟩ (.sub (.var "A") (.var "A")) =
      to_evmdd_rec ⟨["A"], [2], true⟩ (.num 0) :=
  c6_identities_amended ⟨["A"], [2], true⟩ (.var "A")
    (Edge.mk 0 (Node.mk 1 (.cons (Edge.mk 0 make_sink_node)
      (.cons (Edge.mk 1 make_sink_node) .nil))))
    rfl (by decide) (by decide)

end Pyevmdd
